import Mathlib

/-!
Verification of the tree-sequence conversion routines of `ts_argentum.py`
(treeseq-inference).  The Python source is shallowly embedded: strings are
`String`, parsed floating-point values are `ℚ` (all heights exercised by the
claims are small integers, exactly representable both as IEEE doubles and as
rationals), file contents are lists of lines (without their trailing newline),
and the text written to the output file handle is a list of printed chunks.
Python exceptions are modelled by an explicit error type.
-/

/-! ### Python-style rendering of numbers -/

/-- One decimal digit as a character, `0 ↦ '0'`, …, `9 ↦ '9'`. -/
def digitChar (d : Nat) : Char := Char.ofNat (48 + d)

/-- Decimal digits of `n` (fuel-driven; `fuel ≥ n` suffices). -/
def natStrAux : Nat → Nat → List Char
  | 0, _ => []
  | _ + 1, 0 => []
  | fuel + 1, n + 1 => natStrAux fuel ((n + 1) / 10) ++ [digitChar ((n + 1) % 10)]

/-- Decimal rendering of a natural number, as Python `str` renders an `int`. -/
def natStr (n : Nat) : String := if n = 0 then "0" else String.mk (natStrAux n n)

/-- Fractional decimal digits of `num/den` (long division, `num < den`),
stopping when the remainder hits zero or fuel runs out.  All values exercised
by the claims have short exact decimal expansions. -/
def fracDigits : Nat → Nat → Nat → List Char
  | _, 0, _ => []
  | 0, _ + 1, _ => []
  | fuel + 1, num + 1, den =>
    digitChar ((num + 1) * 10 / den) :: fracDigits fuel ((num + 1) * 10 % den) den

/-- Python `str` of a non-negative float value: integer part, `'.'`, fractional
digits (at least one, `"0"` when the value is integral), e.g. `1 ↦ "1.0"`. -/
def pyFloatNN (q : ℚ) : String :=
  let ip := q.num.toNat / q.den
  let r := q.num.toNat % q.den
  let fs := fracDigits 40 r q.den
  natStr ip ++ "." ++ (if fs = [] then "0" else String.mk fs)

/-- Python `str` of a float value (the claims only exercise values with finite
decimal expansions, on which numpy/Python shortest-roundtrip printing agrees
with the exact expansion). -/
def pyFloat (q : ℚ) : String := if q < 0 then "-" ++ pyFloatNN (-q) else pyFloatNN q

/-! ### Python string helpers -/

/-- Python `str.rstrip()`: drop trailing whitespace. -/
def pyRstrip (s : String) : String :=
  String.mk ((s.data.reverse.dropWhile Char.isWhitespace).reverse)

/-- Python `line[0].isdigit()`; an empty model line corresponds to a bare
newline in the file, whose first character is not a digit. -/
def startsWithDigit (s : String) : Bool := (s.data.headD ' ').isDigit

/-- Python `s.startswith(p)`, on character lists. -/
def pyStartsWith (s p : String) : Bool := p.data.isPrefixOf s.data

/-- Python `s.endswith(p)`, on character lists. -/
def pyEndsWith (s p : String) : Bool := p.data.isSuffixOf s.data

/-- Python `s[n:]`: drop the first `n` characters. -/
def pyDrop (s : String) (n : Nat) : String := String.mk (s.data.drop n)

/-- Split a character list at every occurrence of `sep`, keeping empty
pieces (so the result always has one more piece than there are separators). -/
def splitChars (sep : Char) : List Char → List (List Char)
  | [] => [[]]
  | c :: rest =>
    let r := splitChars sep rest
    if c = sep then [] :: r
    else
      match r with
      | a :: as => (c :: a) :: as
      | [] => [[c]]

/-- Python `s.split(sep)` for a one-character separator: `"".split(sep)`
gives `[""]`, just as in Python. -/
def pySplit (sep : Char) (s : String) : List String := (splitChars sep s.data).map String.mk

/-- Python `sep.join(l)`. -/
def pyJoin (sep : String) : List String → String
  | [] => ""
  | [x] => x
  | x :: y :: xs => x ++ sep ++ pyJoin sep (y :: xs)

/-! ### Parsing floating point text (numpy `fromstring`) -/

/-- Accumulate a digit string as a natural number; `none` on a non-digit. -/
def digitsVal : List Char → Nat → Option Nat
  | [], acc => some acc
  | c :: rest, acc =>
    if c.isDigit then digitsVal rest (acc * 10 + (c.toNat - 48)) else none

/-- Split a character list at the first `'.'`. -/
def splitDot : List Char → List Char × List Char
  | [] => ([], [])
  | '.' :: rest => ([], rest)
  | c :: rest => let (a, b) := splitDot rest; (c :: a, b)

/-- Parse one decimal token (`-`? digits (`.` digits?)?) as an exact rational;
`none` when the token is not numeric. -/
def parseDec (s : String) : Option ℚ :=
  let neg : Bool := s.data.headD ' ' = '-'
  let cs : List Char := if neg then s.data.tail else s.data
  let ip := (splitDot cs).1
  let fp := (splitDot cs).2
  match digitsVal ip 0, digitsVal fp 0 with
  | some i, some f =>
    if ip = [] ∧ fp = [] then none
    else
      let den : Nat := 10 ^ fp.length
      let numer : Int := (i * den + f : Nat)
      some (Rat.divInt (if neg then -numer else numer) (den : Int))
  | _, _ => none

/-- Keep the longest parsed prefix (numpy text parsing stops at the first
token it cannot read). -/
def takeSomes : List (Option ℚ) → List ℚ
  | some x :: rest => x :: takeSomes rest
  | _ => []

/-- `np.fromstring(s, sep=c)`: the values of the leading parseable
`c`-separated tokens of `s`. -/
def npFromString (sep : Char) (s : String) : List ℚ :=
  if s = "" then [] else takeSomes ((pySplit sep s).map parseDec)

/-- Strict whitespace-separated parse of a positions line: `none` when any
token fails to parse, modelling the case in which `np.fromstring` raises and
the `except` branch of `variant_positions_from_fn` runs. -/
def npFromStringStrict (sep : Char) (s : String) : Option (List ℚ) :=
  if s = "" then some []
  else ((pySplit sep s).filter (· ≠ "")).mapM parseDec

/-! ### `planar_order_to_newick` -/

/-- `np.min` of a parsed height array (the call sites guarantee nonempty). -/
def npMin : List ℚ → ℚ
  | [] => 0
  | h :: t => t.foldl min h

/-- Adjacent differences of a boolean 0/1 vector, `np.diff`. -/
def pairDiffs : List Bool → List Int
  | x :: y :: rest =>
    ((if y then (1 : Int) else 0) - (if x then 1 else 0)) :: pairDiffs (y :: rest)
  | _ => []

/-- `np.diff(np.hstack(([0], mask, [0])))`: the mask padded with zeros on both
sides, then adjacent differences; `+1` marks a run start, `-1` one past a run
end. -/
def npDiffBounded (mask : List Bool) : List Int := pairDiffs (false :: (mask ++ [false]))

/-- `np.where(p)[0]` over a vector, with a running index. -/
def npWhere (p : Int → Bool) : Nat → List Int → List Nat
  | _, [] => []
  | i, x :: rest => if p x then i :: npWhere p (i + 1) rest else npWhere p (i + 1) rest

/-- The merged token `"(" + ",".join(o + nwk for o in toks) + ")"`. -/
def mergeTok (toks : List String) (nwk : String) : String :=
  "(" ++ pyJoin "," (toks.map (fun o => o ++ nwk)) ++ ")"

/-- `orders[end] = "(...)"; del orders[start:end]`: replace the inclusive token
range `[s, e]` by the single merged token.  This is the total in-range model;
the assignment's `IndexError` for `e` out of range is carried by `mergeRunE`
below, and the two agree whenever `e` is an index of `orders`. -/
def mergeRun (orders : List String) (s e : Nat) (nwk : String) : List String :=
  orders.take s ++ [mergeTok ((orders.drop s).take (e + 1 - s)) nwk] ++ orders.drop (e + 1)

/-- The `for start, end in zip(...)` loop: apply each run, maintaining the
`removed` offset exactly as the source does. -/
def applyRuns (nwk : String) : List String → List (Nat × Nat) → Nat → List String
  | orders, [], _ => orders
  | orders, (s, e) :: rest, removed =>
    let s' := s - removed
    let e' := e - removed
    applyRuns nwk (mergeRun orders s' e' nwk) rest (removed + (e' - s'))

/-- `runs_of_min_height = (heights == target_height)`. -/
def passMask (heights : List ℚ) : List Bool :=
  heights.map (fun h => decide (h = npMin heights))

/-- `zip(np.where(diffs > 0)[0], np.where(diffs < 0)[0])`. -/
def passRuns (mask : List Bool) : List (Nat × Nat) :=
  (npWhere (fun d => decide (0 < d)) 0 (npDiffBounded mask)).zip
    (npWhere (fun d => decide (d < 0)) 0 (npDiffBounded mask))

/-- The branch-length suffix `":{target}"`, or `""` without branch lengths. -/
def nwkSuffix (bl : Bool) (target : ℚ) : String := if bl then ":" ++ pyFloat target else ""

/-- One iteration of the clustering `while` loop acting on the order list. -/
def clusterPass (orders : List String) (heights : List ℚ) (bl : Bool) : List String :=
  applyRuns (nwkSuffix bl (npMin heights)) orders (passRuns (passMask heights)) 0

/-- `heights = heights[~runs_of_min_height]`: drop every entry equal to the
current minimum. -/
def passHeights (heights : List ℚ) : List ℚ :=
  heights.filter (fun h => decide (h ≠ npMin heights))

/-- The clustering `while len(heights)` loop.  Each pass removes at least one
height entry, so fuel `heights.length` makes the fuel-driven recursion exactly
the source loop. -/
def clusterFuel : Nat → List String → List ℚ → Bool → List String
  | _, orders, [], _ => orders
  | 0, orders, _ :: _, _ => orders
  | fuel + 1, orders, h :: hs, bl =>
    clusterFuel fuel (clusterPass orders (h :: hs) bl) (passHeights (h :: hs)) bl

/-- `planar_order_to_newick(order_string, height_string, branch_lengths=True)`,
in-range (total) form: the value the source returns whenever its in-place
merges never index past the order list, which holds under the invariant
`len(orders) = len(heights) + 1` (`planar_order_to_newickE_eq`); the guarded
`planar_order_to_newickE` below also carries the `IndexError` raised outside
that invariant.  The final `orders[0]` is total (`split` always returns at
least one token). -/
def planar_order_to_newick (order_string height_string : String)
    (branch_lengths : Bool := true) : String :=
  let orders := pySplit ',' order_string
  let heights := npFromString ',' height_string
  (clusterFuel heights.length orders heights branch_lengths).headD "" ++ ";"

/-! ### Maximal-run view of one clustering pass

`applySpec` walks the mask once: tokens at `false` entries are copied, and the
`k+1` tokens spanning each maximal run of `k` consecutive `true` entries are
merged into a single cluster.  Below it is proved equal to the source's
diff/where/zip computation. -/

/-- Number of leading `true` entries. -/
def leadTrue : List Bool → Nat
  | true :: m => leadTrue m + 1
  | _ => 0

/-- One clustering pass described by maximal runs of the mask. -/
def applySpec (nwk : String) : List String → List Bool → List String
  | orders, [] => orders
  | [], false :: _ => []
  | o :: os, false :: m => o :: applySpec nwk os m
  | orders, true :: m =>
    applySpec nwk
      (mergeTok (orders.take (leadTrue m + 2)) nwk :: orders.drop (leadTrue m + 2))
      (m.drop (leadTrue m))
termination_by _os mask => mask.length
decreasing_by
  all_goals simp
  all_goals omega

theorem leadTrue_eq (j : Nat) (l : List Bool) (hl : l.headD false = false) :
    leadTrue (List.replicate j true ++ l) = j := by
  induction j with
  | zero =>
    match l with
    | [] => rfl
    | b :: t => simp at hl; simp [hl, leadTrue]
  | succ j ih => simpa [List.replicate_succ, leadTrue] using ih

theorem leadTrue_decomp (m : List Bool) :
    m = List.replicate (leadTrue m) true ++ m.drop (leadTrue m) ∧
      (m.drop (leadTrue m)).headD false = false := by
  induction m with
  | nil => simp [leadTrue]
  | cons b t ih =>
    cases b with
    | false => simp [leadTrue]
    | true =>
      refine ⟨?_, ?_⟩
      · show true :: t = List.replicate (leadTrue t + 1) true ++ _
        rw [List.replicate_succ]
        simpa [leadTrue] using ih.1
      · simpa [leadTrue] using ih.2

theorem pairDiffs_cons₂ (x y : Bool) (l : List Bool) :
    pairDiffs (x :: y :: l)
      = ((if y then (1 : Int) else 0) - (if x then 1 else 0)) :: pairDiffs (y :: l) := rfl

theorem pairDiffs_same (a : Nat) (x : Bool) (l : List Bool) :
    pairDiffs (x :: (List.replicate a x ++ l)) = List.replicate a 0 ++ pairDiffs (x :: l) := by
  induction a with
  | zero => simp
  | succ a ih =>
    rw [List.replicate_succ, List.cons_append, pairDiffs_cons₂]
    simp only [sub_self, List.replicate_succ, List.cons_append, ih]

theorem npDiff_allFalse (a : Nat) :
    npDiffBounded (List.replicate a false) = List.replicate (a + 1) 0 := by
  have h := pairDiffs_same a false [false]
  simp only [npDiffBounded, h]
  have : pairDiffs [false, false] = [0] := rfl
  rw [this]
  simp [List.replicate_succ']

theorem npDiff_false_cons (m : List Bool) :
    npDiffBounded (false :: m) = 0 :: npDiffBounded m := by
  cases m with
  | nil => rfl
  | cons b t => simp [npDiffBounded, pairDiffs_cons₂]

theorem npDiffBounded_def (mask : List Bool) :
    npDiffBounded mask = pairDiffs (false :: (mask ++ [false])) := rfl

theorem pairDiffs_pair (x y : Bool) :
    pairDiffs [x, y] = [(if y then (1 : Int) else 0) - (if x then 1 else 0)] := rfl

theorem npDiff_true_end (j : Nat) :
    npDiffBounded (List.replicate (j + 1) true) = 1 :: (List.replicate j 0 ++ [-1]) := by
  rw [List.replicate_succ, npDiffBounded_def]
  rw [List.cons_append, pairDiffs_cons₂, pairDiffs_same j true [false]]
  simp [pairDiffs_pair]

theorem npDiff_true_mid (j : Nat) (r2 : List Bool) :
    npDiffBounded (List.replicate (j + 1) true ++ false :: r2)
      = 1 :: (List.replicate j 0 ++ -1 :: npDiffBounded r2) := by
  rw [List.replicate_succ, npDiffBounded_def]
  simp only [List.cons_append, List.append_assoc]
  rw [pairDiffs_cons₂, pairDiffs_same j true (false :: (r2 ++ [false])), pairDiffs_cons₂,
    ← npDiffBounded_def]
  simp

theorem npWhere_skip (p : Int → Bool) (x : Int) (hx : p x = false) (a : Nat) :
    ∀ (i : Nat) (l : List Int), npWhere p i (List.replicate a x ++ l) = npWhere p (i + a) l := by
  induction a with
  | zero => intro i l; simp
  | succ a ih =>
    intro i l
    rw [List.replicate_succ, List.cons_append]
    show npWhere p i (x :: (List.replicate a x ++ l)) = _
    simp only [npWhere, hx, Bool.false_eq_true, if_false, ih]
    congr 1
    omega

theorem npWhere_add (p : Int → Bool) :
    ∀ (l : List Int) (i j : Nat), npWhere p (i + j) l = (npWhere p j l).map (· + i) := by
  intro l
  induction l with
  | nil => intro i j; rfl
  | cons x t ih =>
    intro i j
    by_cases hx : p x
    · simp only [npWhere, hx, if_true, List.map_cons]
      rw [show i + j + 1 = i + (j + 1) by omega, ih i (j + 1)]
      congr 1
      omega
    · simp only [npWhere, hx, Bool.false_eq_true, if_false]
      rw [show i + j + 1 = i + (j + 1) by omega, ih i (j + 1)]

theorem npWhere_shift (p : Int → Bool) (l : List Int) (c : Nat) :
    npWhere p c l = (npWhere p 0 l).map (· + c) := by
  simpa using npWhere_add p l c 0

/-- Shift both endpoints of every run by `c`. -/
def shiftRuns (c : Nat) (rs : List (Nat × Nat)) : List (Nat × Nat) :=
  rs.map (fun se => (se.1 + c, se.2 + c))

theorem passRuns_nil : passRuns [] = [] := rfl

theorem passRuns_allFalse (a : Nat) : passRuns (List.replicate a false) = [] := by
  have hgt : npWhere (fun d => decide (0 < d)) 0 (List.replicate (a + 1) 0) = [] := by
    simpa using npWhere_skip (fun d => decide (0 < d)) 0 (by simp) (a + 1) 0 []
  have hlt : npWhere (fun d => decide (d < 0)) 0 (List.replicate (a + 1) 0) = [] := by
    simpa using npWhere_skip (fun d => decide (d < 0)) 0 (by simp) (a + 1) 0 []
  simp [passRuns, npDiff_allFalse, hgt, hlt]

theorem passRuns_false_cons (m : List Bool) :
    passRuns (false :: m) = shiftRuns 1 (passRuns m) := by
  have h0 : npDiffBounded (false :: m) = List.replicate 1 0 ++ npDiffBounded m := by
    simpa using npDiff_false_cons m
  simp only [passRuns, h0]
  rw [npWhere_skip _ 0 (by simp) 1, npWhere_skip _ 0 (by simp) 1]
  rw [npWhere_shift _ _ 1, npWhere_shift _ _ 1]
  rw [List.zip_map]
  rfl

theorem passRuns_true_end (j : Nat) :
    passRuns (List.replicate (j + 1) true) = [(0, j + 1)] := by
  simp only [passRuns, npDiff_true_end]
  simp only [npWhere]
  norm_num
  rw [npWhere_skip _ 0 (by simp) j, npWhere_skip _ 0 (by simp) j]
  simp [npWhere]
  omega

theorem passRuns_true_mid (j : Nat) (r2 : List Bool) :
    passRuns (List.replicate (j + 1) true ++ false :: r2)
      = (0, j + 1) :: shiftRuns (j + 2) (passRuns r2) := by
  simp only [passRuns, npDiff_true_mid]
  simp only [npWhere]
  norm_num
  rw [npWhere_skip _ 0 (by simp) j, npWhere_skip _ 0 (by simp) j]
  simp only [npWhere]
  norm_num
  rw [show 1 + j + 1 = j + 2 by omega, npWhere_shift _ (npDiffBounded r2) (j + 2),
    npWhere_shift (fun d => decide (d < 0)) (npDiffBounded r2) (j + 2)]
  refine ⟨by omega, ?_⟩
  rw [List.zip_map]
  rfl

/-- Sortedness-with-bounds of a run list: starts never before `lo`, each run
nonempty in token span, and each later run beyond the previous one. -/
def RunsLB : Nat → List (Nat × Nat) → Prop
  | _, [] => True
  | lo, (s, e) :: rest => lo ≤ s ∧ s ≤ e ∧ RunsLB (e + 1) rest

theorem RunsLB.mono : ∀ {rs : List (Nat × Nat)} {lo lo' : Nat},
    lo' ≤ lo → RunsLB lo rs → RunsLB lo' rs := by
  intro rs
  cases rs with
  | nil => intro _ _ _ _; trivial
  | cons se rest =>
    intro lo lo' h hr
    obtain ⟨h1, h2, h3⟩ := hr
    exact ⟨by omega, h2, h3⟩

theorem RunsLB.shift (c : Nat) : ∀ (rs : List (Nat × Nat)) (lo : Nat),
    RunsLB lo rs → RunsLB (lo + c) (shiftRuns c rs) := by
  intro rs
  induction rs with
  | nil => intro lo _; trivial
  | cons se rest ih =>
    intro lo h
    obtain ⟨h1, h2, h3⟩ := h
    refine ⟨by omega, by omega, ?_⟩
    have h4 := ih (se.2 + 1) h3
    rw [show se.2 + 1 + c = se.2 + c + 1 from by omega] at h4
    exact h4

theorem passRuns_lb : ∀ (n : Nat) (mask : List Bool), mask.length ≤ n →
    RunsLB 0 (passRuns mask) := by
  intro n
  induction n with
  | zero =>
    intro mask hm
    have : mask = [] := List.eq_nil_of_length_eq_zero (by omega)
    subst this
    rw [passRuns_nil]; trivial
  | succ n ih =>
    intro mask hm
    match mask with
    | [] => rw [passRuns_nil]; trivial
    | false :: m =>
      rw [passRuns_false_cons]
      have hml : m.length ≤ n := by simp at hm; omega
      exact ((ih m hml).shift 1).mono (by omega)
    | true :: m =>
      obtain ⟨hdec, hhd⟩ := leadTrue_decomp m
      set j := leadTrue m with hj
      have hmask : true :: m = List.replicate (j + 1) true ++ m.drop j := by
        rw [List.replicate_succ, List.cons_append]
        exact congrArg (true :: ·) hdec
      cases hrest : m.drop j with
      | nil =>
        rw [hmask, hrest, List.append_nil, passRuns_true_end]
        exact ⟨Nat.zero_le _, by omega, trivial⟩
      | cons b r2 =>
        have hb : b = false := by
          rw [hrest] at hhd; simpa using hhd
        subst hb
        rw [hmask, hrest, passRuns_true_mid]
        refine ⟨Nat.zero_le _, by omega, ?_⟩
        have hr2 : r2.length ≤ n := by
          have := List.length_drop j m
          rw [hrest] at this
          have hml : m.length ≤ n := by simp at hm; omega
          simp at this
          omega
        have := (ih r2 hr2).shift (j + 2)
        simpa using this

/-! ### In-range guarding of the merge assignment

`orders[end] = "(...)"` in the source is a Python list assignment, which
raises `IndexError` when `end` is not an index of `orders` — reachable when a
record carries at least as many parsed heights as order tokens.  The guarded
versions below return `none` in exactly that situation and otherwise perform
the same merge; they agree with the total versions above whenever the source
invariant `len(orders) = len(heights) + 1` holds. -/

/-- `orders[end] = "(...)"; del orders[start:end]`, with the source's
`IndexError` when `end` is out of range. -/
def mergeRunE (orders : List String) (s e : Nat) (nwk : String) :
    Option (List String) :=
  if e < orders.length then some (mergeRun orders s e nwk) else none

/-- The run loop with the `IndexError` propagated. -/
def applyRunsE (nwk : String) : List String → List (Nat × Nat) → Nat →
    Option (List String)
  | orders, [], _ => some orders
  | orders, (s, e) :: rest, removed =>
    match mergeRunE orders (s - removed) (e - removed) nwk with
    | none => none
    | some orders2 =>
      applyRunsE nwk orders2 rest (removed + (e - removed - (s - removed)))

/-- One clustering pass with the `IndexError` propagated. -/
def clusterPassE (orders : List String) (heights : List ℚ) (bl : Bool) :
    Option (List String) :=
  applyRunsE (nwkSuffix bl (npMin heights)) orders (passRuns (passMask heights)) 0

/-- The clustering loop with the `IndexError` propagated. -/
def clusterFuelE : Nat → List String → List ℚ → Bool → Option (List String)
  | _, orders, [], _ => some orders
  | 0, orders, _ :: _, _ => some orders
  | fuel + 1, orders, h :: hs, bl =>
    match clusterPassE orders (h :: hs) bl with
    | none => none
    | some orders2 => clusterFuelE fuel orders2 (passHeights (h :: hs)) bl

/-- `planar_order_to_newick` with the `IndexError` of the in-place merge
propagated: `none` exactly when the source call raises, `some` of the returned
text otherwise. -/
def planar_order_to_newickE (order_string height_string : String)
    (branch_lengths : Bool := true) : Option String :=
  let orders := pySplit ',' order_string
  let heights := npFromString ',' height_string
  (clusterFuelE heights.length orders heights branch_lengths).map
    (fun l => l.headD "" ++ ";")

theorem mergeRun_length (orders : List String) (s e : Nat) (nwk : String)
    (hs : s ≤ e) (he : e < orders.length) :
    (mergeRun orders s e nwk).length = orders.length - (e - s) := by
  unfold mergeRun
  simp only [List.length_append, List.length_take, List.length_drop,
    List.length_cons, List.length_nil]
  omega

theorem passRuns_ub : ∀ (n : Nat) (mask : List Bool), mask.length ≤ n →
    ∀ se ∈ passRuns mask, se.2 ≤ mask.length := by
  intro n
  induction n with
  | zero =>
    intro mask hm se hse
    have : mask = [] := List.eq_nil_of_length_eq_zero (by omega)
    subst this
    rw [passRuns_nil] at hse
    simp at hse
  | succ n ih =>
    intro mask hm se hse
    match mask with
    | [] => rw [passRuns_nil] at hse; simp at hse
    | false :: m =>
      rw [passRuns_false_cons] at hse
      obtain ⟨⟨s, e⟩, hmem, rfl⟩ := List.mem_map.mp hse
      have := ih m (by simp at hm; omega) (s, e) hmem
      simp only [List.length_cons]
      simp at this ⊢
      omega
    | true :: m =>
      obtain ⟨hdec, hhd⟩ := leadTrue_decomp m
      cases hrest : m.drop (leadTrue m) with
      | nil =>
        have hm' : m = List.replicate (leadTrue m) true := by
          conv_lhs => rw [hdec]
          rw [hrest, List.append_nil]
        have hmask : true :: m = List.replicate (leadTrue m + 1) true := by
          rw [List.replicate_succ]
          exact congrArg (true :: ·) hm'
        rw [hmask] at hse
        rw [passRuns_true_end] at hse
        simp at hse
        have h2 : se.2 = leadTrue m + 1 := by rw [hse]
        have hlm := congrArg List.length hmask
        simp at hlm
        simp only [List.length_cons]
        omega
      | cons b r2 =>
        have hb : b = false := by rw [hrest] at hhd; simpa using hhd
        subst hb
        have hm' : m = List.replicate (leadTrue m) true ++ false :: r2 := by
          conv_lhs => rw [hdec]
          rw [hrest]
        have hmask : true :: m = List.replicate (leadTrue m + 1) true ++ false :: r2 := by
          rw [List.replicate_succ, List.cons_append]
          exact congrArg (true :: ·) hm'
        have hlm : m.length = leadTrue m + 1 + r2.length := by
          have := congrArg List.length hm'
          simp at this
          omega
        have hm2 : m.length ≤ n := by simp at hm; omega
        rw [hmask, passRuns_true_mid] at hse
        rcases List.mem_cons.mp hse with h1 | h1
        · have : se.2 = leadTrue m + 1 := by rw [h1]
          simp only [List.length_cons]
          omega
        · obtain ⟨⟨s, e⟩, hmem, rfl⟩ := List.mem_map.mp h1
          have := ih r2 (by omega) (s, e) hmem
          simp only [List.length_cons]
          simp at this ⊢
          omega

theorem applyRunsE_eq : ∀ (rs : List (Nat × Nat)) (orders : List String)
    (removed : Nat) (nwk : String), RunsLB removed rs →
    (∀ se ∈ rs, se.2 < removed + orders.length) →
    applyRunsE nwk orders rs removed = some (applyRuns nwk orders rs removed) := by
  intro rs
  induction rs with
  | nil => intros; rfl
  | cons se rest ih =>
    obtain ⟨s, e⟩ := se
    intro orders removed nwk hlb hub
    obtain ⟨h1, h2, h3⟩ := hlb
    have he : e - removed < orders.length := by
      have := hub (s, e) (by simp)
      simp at this
      omega
    show (match mergeRunE orders (s - removed) (e - removed) nwk with
        | none => none
        | some orders2 =>
          applyRunsE nwk orders2 rest (removed + (e - removed - (s - removed))))
      = _
    rw [show mergeRunE orders (s - removed) (e - removed) nwk
      = some (mergeRun orders (s - removed) (e - removed) nwk) from by
        simp [mergeRunE, he]]
    rw [show applyRuns nwk orders ((s, e) :: rest) removed
      = applyRuns nwk (mergeRun orders (s - removed) (e - removed) nwk) rest
          (removed + (e - removed - (s - removed))) from rfl]
    have hlen : (mergeRun orders (s - removed) (e - removed) nwk).length
        = orders.length - (e - s) := by
      rw [mergeRun_length orders (s - removed) (e - removed) nwk (by omega) he]
      congr 1
      omega
    apply ih
    · exact h3.mono (by omega)
    · intro se2 hse2
      have := hub se2 (List.mem_cons_of_mem _ hse2)
      rw [hlen]
      omega

theorem clusterPassE_eq (orders : List String) (heights : List ℚ) (bl : Bool)
    (hlen : heights.length < orders.length) :
    clusterPassE orders heights bl = some (clusterPass orders heights bl) := by
  unfold clusterPassE clusterPass
  apply applyRunsE_eq
  · exact passRuns_lb (passMask heights).length _ (le_refl _)
  · intro se hse
    have h1 := passRuns_ub (passMask heights).length _ (le_refl _) se hse
    have hm : (passMask heights).length = heights.length := by simp [passMask]
    omega

example : planar_order_to_newick "A,B,C" "1,2" true
    = "((A:1.0,B:1.0):2.0,C:2.0);" := by decide
example : planar_order_to_newick "A,B,C" "1,1" false = "(A,B,C);" := by decide
example : planar_order_to_newick "A" "" false = "A;" := by decide

theorem mergeRun_append (pre suf : List String) (s e : Nat) (nwk : String)
    (hs : pre.length ≤ s) (hse : s ≤ e) :
    mergeRun (pre ++ suf) s e nwk = pre ++ mergeRun suf (s - pre.length) (e - pre.length) nwk := by
  unfold mergeRun
  simp only [List.take_append_eq_append_take, List.drop_append_eq_append_drop]
  rw [List.take_of_length_le hs, List.drop_eq_nil_of_le hs,
    List.drop_eq_nil_of_le (show pre.length ≤ e + 1 by omega)]
  rw [show e + 1 - s = e - pre.length + 1 - (s - pre.length) by omega,
    show e + 1 - pre.length = e - pre.length + 1 by omega]
  simp [List.append_assoc]

theorem applyRuns_cons (nwk : String) (orders : List String) (s e removed : Nat)
    (rest : List (Nat × Nat)) :
    applyRuns nwk orders ((s, e) :: rest) removed
      = applyRuns nwk (mergeRun orders (s - removed) (e - removed) nwk) rest
          (removed + (e - removed - (s - removed))) := rfl

theorem applyRuns_shift (nwk : String) (c : Nat) : ∀ (rs : List (Nat × Nat))
    (orders : List String) (removed : Nat),
    applyRuns nwk orders (shiftRuns c rs) (removed + c) = applyRuns nwk orders rs removed := by
  intro rs
  induction rs with
  | nil => intro orders removed; rfl
  | cons se rest ih =>
    intro orders removed
    obtain ⟨s, e⟩ := se
    show applyRuns nwk orders ((s + c, e + c) :: shiftRuns c rest) (removed + c) = _
    rw [applyRuns_cons, applyRuns_cons]
    rw [show s + c - (removed + c) = s - removed by omega,
      show e + c - (removed + c) = e - removed by omega,
      show removed + c + (e - removed - (s - removed))
        = removed + (e - removed - (s - removed)) + c by omega]
    exact ih _ _

theorem applyRuns_append (nwk : String) (pre : List String) : ∀ (rs : List (Nat × Nat))
    (suf : List String) (removed : Nat), RunsLB (removed + pre.length) rs →
    applyRuns nwk (pre ++ suf) rs removed = pre ++ applyRuns nwk suf rs (removed + pre.length) := by
  intro rs
  induction rs with
  | nil => intro suf removed _; rfl
  | cons se rest ih =>
    intro suf removed hlb
    obtain ⟨s, e⟩ := se
    obtain ⟨h1, h2, h3⟩ := hlb
    rw [applyRuns_cons, applyRuns_cons]
    rw [mergeRun_append pre suf (s - removed) (e - removed) nwk (by omega) (by omega)]
    rw [show s - removed - pre.length = s - (removed + pre.length) by omega,
      show e - removed - pre.length = e - (removed + pre.length) by omega]
    rw [ih _ _ (h3.mono (by omega))]
    rw [show removed + (e - removed - (s - removed)) + pre.length
      = removed + pre.length
        + (e - (removed + pre.length) - (s - (removed + pre.length))) by omega]

theorem applyRuns_eq_applySpec : ∀ (n : Nat) (mask : List Bool), mask.length ≤ n →
    ∀ (orders : List String) (nwk : String), mask.length + 1 = orders.length →
    applyRuns nwk orders (passRuns mask) 0 = applySpec nwk orders mask := by
  intro n
  induction n with
  | zero =>
    intro mask hm orders nwk _
    have hmask : mask = [] := List.eq_nil_of_length_eq_zero (by omega)
    subst hmask
    rw [passRuns_nil]
    simp [applyRuns, applySpec]
  | succ n ih =>
    intro mask hm orders nwk hlen
    match mask with
    | [] =>
      rw [passRuns_nil]
      simp [applyRuns, applySpec]
    | false :: m =>
      rcases orders with _ | ⟨o, os⟩
      · simp at hlen
      rw [passRuns_false_cons]
      have hlb : RunsLB (0 + 1) (shiftRuns 1 (passRuns m)) :=
        (passRuns_lb n m (by simp at hm; omega)).shift 1
      rw [show (o :: os : List String) = [o] ++ os from rfl,
        applyRuns_append nwk [o] _ os 0 (by simpa using hlb)]
      rw [show (0 : Nat) + [o].length = 0 + 1 from rfl, applyRuns_shift nwk 1 (passRuns m) os 0]
      rw [ih m (by simp at hm; omega) os nwk (by simp at hlen; omega)]
      simp [applySpec]
    | true :: m =>
      obtain ⟨hdec, hhd⟩ := leadTrue_decomp m
      have hj : leadTrue (true :: m) = leadTrue m + 1 := rfl
      cases hrest : m.drop (leadTrue m) with
      | nil =>
        have hm' : m = List.replicate (leadTrue m) true := by
          conv_lhs => rw [hdec]
          rw [hrest, List.append_nil]
        have hmask : true :: m = List.replicate (leadTrue m + 1) true := by
          rw [List.replicate_succ]
          exact congrArg (true :: ·) hm'
        rw [hmask, passRuns_true_end, applyRuns_cons]
        simp only [Nat.sub_zero, Nat.zero_add]
        rw [show applyRuns nwk (mergeRun orders 0 (leadTrue m + 1) nwk) [] (leadTrue m + 1)
          = mergeRun orders 0 (leadTrue m + 1) nwk from rfl]
        rw [show mergeRun orders 0 (leadTrue m + 1) nwk
          = mergeTok (orders.take (leadTrue m + 2)) nwk :: orders.drop (leadTrue m + 2) by
            simp [mergeRun]]
        conv_rhs => rw [← hmask]
        rw [show applySpec nwk orders (true :: m)
          = applySpec nwk
              (mergeTok (orders.take (leadTrue m + 2)) nwk :: orders.drop (leadTrue m + 2))
              (m.drop (leadTrue m)) from by simp [applySpec]]
        rw [hrest]
        simp [applySpec]
      | cons b r2 =>
        have hb : b = false := by rw [hrest] at hhd; simpa using hhd
        subst hb
        have hm' : m = List.replicate (leadTrue m) true ++ false :: r2 := by
          conv_lhs => rw [hdec]
          rw [hrest]
        have hmask : true :: m = List.replicate (leadTrue m + 1) true ++ false :: r2 := by
          rw [List.replicate_succ, List.cons_append]
          exact congrArg (true :: ·) hm'
        have hr2len : r2.length ≤ n := by
          have h1 := congrArg List.length hm'
          simp at h1 hm
          omega
        have hlb : RunsLB (leadTrue m + 1 + List.length [mergeTok (orders.take (leadTrue m + 2)) nwk])
            (shiftRuns (leadTrue m + 2) (passRuns r2)) := by
          have h2 := (passRuns_lb n r2 hr2len).shift (leadTrue m + 2)
          simpa using h2
        have happ := applyRuns_append nwk [mergeTok (orders.take (leadTrue m + 2)) nwk]
          (shiftRuns (leadTrue m + 2) (passRuns r2)) (orders.drop (leadTrue m + 2))
          (leadTrue m + 1) hlb
        have hshift := applyRuns_shift nwk (leadTrue m + 2) (passRuns r2)
          (orders.drop (leadTrue m + 2)) 0
        have hih := ih r2 hr2len (orders.drop (leadTrue m + 2)) nwk (by
          have h1 := congrArg List.length hm'
          simp at h1
          simp only [List.length_drop]
          simp at hlen
          omega)
        rw [hmask, passRuns_true_mid, applyRuns_cons]
        simp only [Nat.sub_zero, Nat.zero_add]
        rw [show mergeRun orders 0 (leadTrue m + 1) nwk
          = mergeTok (orders.take (leadTrue m + 2)) nwk :: orders.drop (leadTrue m + 2) by
            simp [mergeRun]]
        rw [show (mergeTok (orders.take (leadTrue m + 2)) nwk :: orders.drop (leadTrue m + 2))
          = [mergeTok (orders.take (leadTrue m + 2)) nwk] ++ orders.drop (leadTrue m + 2)
          from rfl]
        rw [happ]
        rw [show leadTrue m + 1 + List.length [mergeTok (orders.take (leadTrue m + 2)) nwk]
          = 0 + (leadTrue m + 2) by simp]
        rw [hshift, hih]
        conv_rhs => rw [← hmask]
        rw [show applySpec nwk orders (true :: m)
          = applySpec nwk
              (mergeTok (orders.take (leadTrue m + 2)) nwk :: orders.drop (leadTrue m + 2))
              (m.drop (leadTrue m)) from by simp [applySpec]]
        rw [hrest]
        simp [applySpec]

theorem clusterPass_eq_applySpec (orders : List String) (heights : List ℚ) (bl : Bool)
    (hlen : heights.length + 1 = orders.length) :
    clusterPass orders heights bl
      = applySpec (nwkSuffix bl (npMin heights)) orders (passMask heights) := by
  have hm : (passMask heights).length = heights.length := by simp [passMask]
  exact applyRuns_eq_applySpec (passMask heights).length (passMask heights) (le_refl _)
    orders _ (by omega)

theorem headD_replicate_false (b : Nat) :
    (List.replicate b false).headD false = false := by
  cases b <;> simp [List.replicate_succ]

theorem applySpec_allFalse (nwk : String) : ∀ (b : Nat) (orders : List String),
    applySpec nwk orders (List.replicate b false) = orders := by
  intro b
  induction b with
  | zero => intro orders; simp [applySpec]
  | succ b ih =>
    intro orders
    rw [List.replicate_succ]
    cases orders with
    | nil => simp [applySpec]
    | cons o os => simp [applySpec, ih]

theorem applySpec_single_run (nwk : String) : ∀ (a : Nat) (orders : List String) (k b : Nat),
    1 ≤ k → a + k + b + 1 = orders.length →
    applySpec nwk orders
        (List.replicate a false ++ List.replicate k true ++ List.replicate b false)
      = orders.take a ++ [mergeTok ((orders.drop a).take (k + 1)) nwk]
          ++ orders.drop (a + k + 1) := by
  intro a
  induction a with
  | zero =>
    intro orders k b hk hlen
    obtain ⟨j, rfl⟩ : ∃ j, k = j + 1 := ⟨k - 1, by omega⟩
    rw [List.replicate_zero, List.nil_append, List.replicate_succ, List.cons_append]
    have hlead : leadTrue (List.replicate j true ++ List.replicate b false) = j :=
      leadTrue_eq j _ (headD_replicate_false b)
    rw [show applySpec nwk orders
          (true :: (List.replicate j true ++ List.replicate b false))
        = applySpec nwk
            (mergeTok (orders.take (leadTrue (List.replicate j true ++ List.replicate b false) + 2)) nwk
              :: orders.drop (leadTrue (List.replicate j true ++ List.replicate b false) + 2))
            ((List.replicate j true ++ List.replicate b false).drop
              (leadTrue (List.replicate j true ++ List.replicate b false)))
        from by simp [applySpec]]
    rw [hlead]
    rw [show (List.replicate j true ++ List.replicate b false).drop j
        = List.replicate b false from by
          simp [List.drop_left (List.replicate j true) (List.replicate b false)]]
    rw [applySpec_allFalse]
    simp [show j + 1 + 1 = j + 2 from rfl]
  | succ a ih =>
    intro orders k b hk hlen
    cases orders with
    | nil => simp at hlen
    | cons o os =>
      rw [List.replicate_succ, List.cons_append, List.cons_append]
      rw [show applySpec nwk (o :: os)
            (false :: (List.replicate a false ++ List.replicate k true ++ List.replicate b false))
          = o :: applySpec nwk os
              (List.replicate a false ++ List.replicate k true ++ List.replicate b false)
          from by simp [applySpec]]
      rw [ih os k b hk (by simp at hlen ⊢; omega)]
      rw [show a + 1 + k + 1 = (a + k + 1) + 1 by omega]
      simp [List.take_succ_cons, List.drop_succ_cons]

/-- Number of `true` entries of a mask. -/
def countTrue (mask : List Bool) : Nat := mask.countP (fun b => b)

theorem countTrue_replicate_true (j : Nat) : countTrue (List.replicate j true) = j := by
  induction j with
  | zero => rfl
  | succ j ih =>
    simp [countTrue, List.replicate_succ, List.countP_cons] at ih ⊢
    exact ih

theorem applySpec_length : ∀ (n : Nat) (mask : List Bool), mask.length ≤ n →
    ∀ (nwk : String) (orders : List String), mask.length + 1 = orders.length →
    (applySpec nwk orders mask).length + countTrue mask = orders.length := by
  intro n
  induction n with
  | zero =>
    intro mask hm nwk orders hlen
    have hmask : mask = [] := List.eq_nil_of_length_eq_zero (by omega)
    subst hmask
    simp [applySpec, countTrue]
  | succ n ih =>
    intro mask hm nwk orders hlen
    match mask with
    | [] =>
      simp [applySpec, countTrue]
    | false :: m =>
      rcases orders with _ | ⟨o, os⟩
      · simp at hlen
      rw [show applySpec nwk (o :: os) (false :: m) = o :: applySpec nwk os m
        from by simp [applySpec]]
      have := ih m (by simp at hm; omega) nwk os (by simp at hlen ⊢; omega)
      simp only [List.length_cons, countTrue, List.countP_cons] at this ⊢
      simp only [List.length_cons] at hlen
      simp at this ⊢
      omega
    | true :: m =>
      obtain ⟨hdec, hhd⟩ := leadTrue_decomp m
      rw [show applySpec nwk orders (true :: m)
          = applySpec nwk
              (mergeTok (orders.take (leadTrue m + 2)) nwk :: orders.drop (leadTrue m + 2))
              (m.drop (leadTrue m)) from by simp [applySpec]]
      have hct : countTrue (true :: m)
          = leadTrue m + 1 + countTrue (m.drop (leadTrue m)) := by
        conv_lhs => rw [show (true :: m : List Bool)
          = true :: (List.replicate (leadTrue m) true ++ m.drop (leadTrue m))
          from congrArg (true :: ·) hdec]
        simp only [countTrue, List.countP_cons, List.countP_append]
        have := countTrue_replicate_true (leadTrue m)
        simp only [countTrue] at this
        simp [this]
        omega
      cases hrest : m.drop (leadTrue m) with
      | nil =>
        have hmlen : m.length = leadTrue m := by
          have := congrArg List.length hdec
          rw [hrest] at this
          simpa using this
        rw [show applySpec nwk
            (mergeTok (orders.take (leadTrue m + 2)) nwk :: orders.drop (leadTrue m + 2)) []
          = mergeTok (orders.take (leadTrue m + 2)) nwk :: orders.drop (leadTrue m + 2)
          from by simp [applySpec]]
        rw [hct, hrest]
        simp only [List.length_cons, List.length_drop, countTrue, List.countP_nil]
        simp at hlen
        omega
      | cons b r2 =>
        have hb : b = false := by rw [hrest] at hhd; simpa using hhd
        subst hb
        rw [show applySpec nwk
            (mergeTok (orders.take (leadTrue m + 2)) nwk :: orders.drop (leadTrue m + 2))
            (false :: r2)
          = mergeTok (orders.take (leadTrue m + 2)) nwk
              :: applySpec nwk (orders.drop (leadTrue m + 2)) r2
          from by simp [applySpec]]
        have hmlen : m.length = leadTrue m + 1 + r2.length := by
          have := congrArg List.length hdec
          rw [hrest] at this
          simp at this
          omega
        have hr2 := ih r2 (by simp at hm; omega) nwk (orders.drop (leadTrue m + 2)) (by
          simp only [List.length_drop]
          simp at hlen
          omega)
        rw [hct, hrest]
        simp only [List.length_cons, List.length_drop, countTrue, List.countP_cons] at hr2 ⊢
        simp only [List.length_cons] at hlen
        simp at hr2 ⊢
        omega

theorem foldl_min_mem (t : List ℚ) : ∀ (a : ℚ), t.foldl min a ∈ a :: t := by
  induction t with
  | nil => intro a; simp
  | cons x xs ih =>
    intro a
    have h := ih (min a x)
    simp only [List.foldl_cons]
    rcases List.mem_cons.mp h with h1 | h1
    · rcases min_choice a x with hc | hc <;> rw [h1, hc]
      · exact List.mem_cons_self _ _
      · simp
    · simp [h1]

theorem npMin_mem (heights : List ℚ) (h : heights ≠ []) : npMin heights ∈ heights := by
  cases heights with
  | nil => exact absurd rfl h
  | cons x xs => simpa [npMin] using foldl_min_mem xs x

theorem foldl_min_of_le (t : List ℚ) : ∀ (a : ℚ), (∀ x ∈ t, a ≤ x) → t.foldl min a = a := by
  induction t with
  | nil => intro a _; rfl
  | cons x xs ih =>
    intro a h
    simp only [List.foldl_cons]
    rw [min_eq_left (h x (by simp))]
    exact ih a (fun y hy => h y (by simp [hy]))

theorem npMin_of_head_le (x : ℚ) (xs : List ℚ) (h : ∀ y ∈ xs, x ≤ y) :
    npMin (x :: xs) = x := by
  simpa [npMin] using foldl_min_of_le xs x h

theorem length_filter_ne (t : ℚ) (l : List ℚ) :
    (l.filter (fun h => decide (h ≠ t))).length
      + l.countP (fun h => decide (h = t)) = l.length := by
  induction l with
  | nil => simp
  | cons x xs ih =>
    by_cases hx : x = t <;>
      simp [List.filter_cons, List.countP_cons, hx, ne_eq, decide_not] at ih ⊢ <;> omega

theorem countTrue_passMask (heights : List ℚ) :
    countTrue (passMask heights)
      = heights.countP (fun h => decide (h = npMin heights)) := by
  simp only [countTrue, passMask, List.countP_map]
  rfl

theorem passHeights_len (heights : List ℚ) :
    (passHeights heights).length + countTrue (passMask heights) = heights.length := by
  rw [countTrue_passMask]
  exact length_filter_ne (npMin heights) heights

theorem passHeights_lt (heights : List ℚ) (h : heights ≠ []) :
    (passHeights heights).length < heights.length := by
  have hmem := npMin_mem heights h
  have hcount : 0 < heights.countP (fun h' => decide (h' = npMin heights)) :=
    List.countP_pos_iff.mpr ⟨npMin heights, hmem, by simp⟩
  have h1 := passHeights_len heights
  rw [countTrue_passMask] at h1
  omega

/-- Each pass removes the same count of order tokens as height entries, so the
`len(heights) == len(orders) - 1` invariant is preserved. -/
theorem clusterPass_invariant (orders : List String) (heights : List ℚ) (bl : Bool)
    (hlen : orders.length = heights.length + 1) :
    (clusterPass orders heights bl).length = (passHeights heights).length + 1 := by
  rw [clusterPass_eq_applySpec orders heights bl (by omega)]
  have h1 := applySpec_length (passMask heights).length (passMask heights) (le_refl _)
    (nwkSuffix bl (npMin heights)) orders (by simp [passMask]; omega)
  have h2 := passHeights_len heights
  have h3 : (passMask heights).length = heights.length := by simp [passMask]
  omega

/-- With fuel at least `heights.length` the clustering loop runs to completion
and collapses the order list to a single token. -/
theorem clusterFuel_length_one : ∀ (n : Nat) (heights : List ℚ), heights.length ≤ n →
    ∀ (orders : List String) (bl : Bool) (fuel : Nat), heights.length ≤ fuel →
    orders.length = heights.length + 1 →
    (clusterFuel fuel orders heights bl).length = 1 := by
  intro n
  induction n with
  | zero =>
    intro heights hn orders bl fuel _ hlen
    have h0 : heights = [] := List.eq_nil_of_length_eq_zero (by omega)
    subst h0
    cases fuel <;> simpa [clusterFuel] using hlen
  | succ n ih =>
    intro heights hn orders bl fuel hfuel hlen
    match heights with
    | [] => cases fuel <;> simpa [clusterFuel] using hlen
    | h :: hs =>
      match fuel with
      | 0 => simp at hfuel
      | f + 1 =>
        rw [show clusterFuel (f + 1) orders (h :: hs) bl
          = clusterFuel f (clusterPass orders (h :: hs) bl) (passHeights (h :: hs)) bl
          from rfl]
        have hlt := passHeights_lt (h :: hs) (by simp)
        exact ih (passHeights (h :: hs)) (by simp at hn hlt ⊢; omega)
          (clusterPass orders (h :: hs) bl) bl f (by simp at hfuel hlt ⊢; omega)
          (clusterPass_invariant orders (h :: hs) bl hlen)

theorem clusterFuelE_eq : ∀ (fuel : Nat) (orders : List String) (heights : List ℚ)
    (bl : Bool), orders.length = heights.length + 1 →
    clusterFuelE fuel orders heights bl = some (clusterFuel fuel orders heights bl) := by
  intro fuel
  induction fuel with
  | zero =>
    intro orders heights bl _
    cases heights <;> rfl
  | succ fuel ih =>
    intro orders heights bl hlen
    cases heights with
    | nil => rfl
    | cons h hs =>
      show (match clusterPassE orders (h :: hs) bl with
          | none => none
          | some orders2 => clusterFuelE fuel orders2 (passHeights (h :: hs)) bl)
        = _
      rw [clusterPassE_eq orders (h :: hs) bl (by simp at hlen ⊢; omega)]
      show clusterFuelE fuel (clusterPass orders (h :: hs) bl) (passHeights (h :: hs)) bl
        = _
      rw [ih (clusterPass orders (h :: hs) bl) (passHeights (h :: hs)) bl
        (clusterPass_invariant orders (h :: hs) bl hlen)]
      rfl

theorem planar_order_to_newickE_eq (os hss : String) (bl : Bool)
    (hwf : (pySplit ',' os).length = (npFromString ',' hss).length + 1) :
    planar_order_to_newickE os hss bl = some (planar_order_to_newick os hss bl) := by
  unfold planar_order_to_newickE planar_order_to_newick
  simp only [clusterFuelE_eq (npFromString ',' hss).length (pySplit ',' os)
    (npFromString ',' hss) bl hwf]
  rfl

/-- A record whose order tokens number exactly one more than its parsed
heights: the invariant under which `planar_order_to_newick` cannot raise. -/
def recordWF (r : String × String) : Bool :=
  (pySplit ',' r.1).length == (npFromString ',' r.2).length + 1

theorem newickE_of_wf (r : String × String) (hr : recordWF r = true) :
    planar_order_to_newickE r.1 r.2 true
      = some (planar_order_to_newick r.1 r.2 true) := by
  apply planar_order_to_newickE_eq
  simpa [recordWF] using hr

theorem map_decide_eq_false (m : ℚ) : ∀ (l : List ℚ), (∀ x ∈ l, x ≠ m) →
    l.map (fun h => decide (h = m)) = List.replicate l.length false := by
  intro l
  induction l with
  | nil => intro _; rfl
  | cons x xs ih =>
    intro h
    rw [List.map_cons, List.length_cons, List.replicate_succ]
    rw [ih (fun y hy => h y (by simp [hy]))]
    simp [h x (by simp)]

theorem filter_ne_replicate (m : ℚ) (k : Nat) :
    (List.replicate k m).filter (fun h => decide (h ≠ m)) = [] := by
  induction k with
  | zero => rfl
  | succ k ih => simp [List.replicate_succ, List.filter_cons, ih]

theorem filter_ne_of_ne (m : ℚ) : ∀ (l : List ℚ), (∀ x ∈ l, x ≠ m) →
    l.filter (fun h => decide (h ≠ m)) = l := by
  intro l
  induction l with
  | nil => intro _; rfl
  | cons x xs ih =>
    intro h
    rw [List.filter_cons, if_pos (by simp [h x (by simp)]),
      ih (fun y hy => h y (by simp [hy]))]

theorem passMask_single (a b : List ℚ) (k : Nat) (m : ℚ)
    (hmin : m = npMin (a ++ List.replicate k m ++ b))
    (ha : ∀ x ∈ a, x ≠ m) (hb : ∀ x ∈ b, x ≠ m) :
    passMask (a ++ List.replicate k m ++ b)
      = List.replicate a.length false ++ List.replicate k true
          ++ List.replicate b.length false := by
  unfold passMask
  rw [← hmin, List.map_append, List.map_append]
  rw [map_decide_eq_false m a ha, map_decide_eq_false m b hb]
  rw [List.map_replicate]
  simp

theorem passHeights_single (a b : List ℚ) (k : Nat) (m : ℚ)
    (hmin : m = npMin (a ++ List.replicate k m ++ b))
    (ha : ∀ x ∈ a, x ≠ m) (hb : ∀ x ∈ b, x ≠ m) :
    passHeights (a ++ List.replicate k m ++ b) = a ++ b := by
  unfold passHeights
  rw [← hmin, List.filter_append, List.filter_append]
  rw [filter_ne_of_ne m a ha, filter_ne_of_ne m b hb, filter_ne_replicate]
  simp

/-- C2 as stated is false on the code: the clusterer merges at the minimum
height first, so `"A,B,C"` with heights `"1,2"` merges `A,B` (height 1) before
`C` (height 2), and branch lengths are printed in Python float format. -/
theorem claim_C2_counterexample :
    planar_order_to_newick "A,B,C" "1,2" false ≠ "(A,(B,C));"
      ∧ planar_order_to_newick "A,B,C" "1,2" true ≠ "(A:1,(B:2,C:2):1);" := by
  constructor <;> decide

/-- C2 (corrected): order string `"A,B,C"` with height string `"1,2"` yields
`"((A,B),C);"` without branch lengths (A and B merge first, at the minimum
height 1, then the cluster merges with C at height 2) and
`"((A:1.0,B:1.0):2.0,C:2.0);"` with branch lengths (heights rendered in
Python float format). -/
theorem claim_C2 :
    planar_order_to_newick "A,B,C" "1,2" false = "((A,B),C);"
      ∧ planar_order_to_newick "A,B,C" "1,2" true = "((A:1.0,B:1.0):2.0,C:2.0);" := by
  constructor <;> decide

/-- C3: when the pass minimum `m` occurs exactly as one maximal run of `k`
consecutive equal height entries, a single clustering pass replaces the `k+1`
order tokens spanning that run by one multifurcating cluster of `k+1` children
(one merged token, all other tokens untouched) and removes those `k` height
entries; in particular `"A,B,C"` with heights `"1,1"` gives `"(A,B,C);"`. -/
theorem claim_C3 (a b : List ℚ) (k : Nat) (m : ℚ) (orders : List String) (bl : Bool)
    (hk : 1 ≤ k)
    (hmin : m = npMin (a ++ List.replicate k m ++ b))
    (ha : ∀ x ∈ a, x ≠ m) (hb : ∀ x ∈ b, x ≠ m)
    (hlen : orders.length = (a ++ List.replicate k m ++ b).length + 1) :
    clusterPass orders (a ++ List.replicate k m ++ b) bl
        = orders.take a.length
          ++ [mergeTok ((orders.drop a.length).take (k + 1)) (nwkSuffix bl m)]
          ++ orders.drop (a.length + k + 1)
      ∧ passHeights (a ++ List.replicate k m ++ b) = a ++ b
      ∧ planar_order_to_newick "A,B,C" "1,1" false = "(A,B,C);" := by
  refine ⟨?_, passHeights_single a b k m hmin ha hb, by decide⟩
  rw [clusterPass_eq_applySpec orders _ bl (by omega)]
  rw [passMask_single a b k m hmin ha hb, ← hmin]
  exact applySpec_single_run (nwkSuffix bl m) a.length orders k b.length hk
    (by simp at hlen ⊢; omega)

theorem claim_C3_witness :
    clusterPass ["A", "B", "C"] ([] ++ List.replicate 2 (1 : ℚ) ++ []) false
        = (["A", "B", "C"].take (List.length ([] : List ℚ)))
          ++ [mergeTok ((["A", "B", "C"].drop (List.length ([] : List ℚ))).take (2 + 1))
                (nwkSuffix false 1)]
          ++ (["A", "B", "C"].drop (List.length ([] : List ℚ) + 2 + 1))
      ∧ passHeights ([] ++ List.replicate 2 (1 : ℚ) ++ []) = [] ++ []
      ∧ planar_order_to_newick "A,B,C" "1,1" false = "(A,B,C);" :=
  claim_C3 [] [] 2 1 ["A", "B", "C"] false (by decide) (by decide) (by decide) (by decide)
    (by decide)

/-- C7: a clustering pass removes as many order tokens as height entries, so
`len(heights) == len(orders) - 1` is preserved from each pass to the next, and
with that invariant the loop (fuel `heights.length` suffices, as each pass
removes at least one height) terminates with the order collapsed to a single
token. -/
theorem claim_C7 :
    (∀ (orders : List String) (heights : List ℚ) (bl : Bool),
        orders.length = heights.length + 1 →
        (clusterPass orders heights bl).length = (passHeights heights).length + 1)
      ∧ (∀ (orders : List String) (heights : List ℚ) (bl : Bool) (fuel : Nat),
          orders.length = heights.length + 1 → heights.length ≤ fuel →
          (clusterFuel fuel orders heights bl).length = 1) :=
  ⟨fun orders heights bl hlen => clusterPass_invariant orders heights bl hlen,
   fun orders heights bl fuel hlen hfuel =>
    clusterFuel_length_one heights.length heights (le_refl _) orders bl fuel hfuel hlen⟩

theorem claim_C7_witness :
    ((["A", "B"] : List String).length = ([1] : List ℚ).length + 1
      ∧ (clusterPass ["A", "B"] [1] false).length = (passHeights [1]).length + 1)
      ∧ (clusterFuel 1 ["A", "B"] [1] false).length = 1 :=
  ⟨⟨by decide, claim_C7.1 ["A", "B"] [1] false (by decide)⟩,
   claim_C7.2 ["A", "B"] [1] false 1 (by decide) (by decide)⟩

/-! ### Strictly increasing heights: one binary merge per pass -/

/-- Strict increase of a height sequence (decidable, used by C6). -/
def strictIncr : List ℚ → Bool
  | a :: b :: t => decide (a < b) && strictIncr (b :: t)
  | _ => true

theorem strictIncr_head_lt (h : ℚ) (hs : List ℚ) (hsi : strictIncr (h :: hs) = true) :
    ∀ x ∈ hs, h < x := by
  induction hs generalizing h with
  | nil => simp
  | cons y t ih =>
    have hsi' : h < y ∧ strictIncr (y :: t) = true := by
      simpa [strictIncr] using hsi
    intro x hx
    rcases List.mem_cons.mp hx with rfl | hx
    · exact hsi'.1
    · exact lt_trans hsi'.1 (ih y hsi'.2 x hx)

theorem strictIncr_tail (h : ℚ) (hs : List ℚ) (hsi : strictIncr (h :: hs) = true) :
    strictIncr hs = true := by
  cases hs with
  | nil => rfl
  | cons y t => simp [strictIncr] at hsi ⊢; exact hsi.2

theorem clusterPass_strict (orders : List String) (h : ℚ) (hs : List ℚ) (bl : Bool)
    (hsi : strictIncr (h :: hs) = true)
    (hlen : orders.length = (h :: hs).length + 1) :
    clusterPass orders (h :: hs) bl
        = mergeTok (orders.take 2) (nwkSuffix bl h) :: orders.drop 2
      ∧ passHeights (h :: hs) = hs := by
  have hlt := strictIncr_head_lt h hs hsi
  have hmin : h = npMin (h :: hs) :=
    (npMin_of_head_le h hs (fun y hy => le_of_lt (hlt y hy))).symm
  have hshape : (h :: hs : List ℚ) = [] ++ List.replicate 1 h ++ hs := by simp
  have hb : ∀ x ∈ hs, x ≠ h := fun x hx => ne_of_gt (hlt x hx)
  have hmin' : h = npMin ([] ++ List.replicate 1 h ++ hs) := by rw [← hshape]; exact hmin
  constructor
  · rw [show clusterPass orders (h :: hs) bl
      = clusterPass orders ([] ++ List.replicate 1 h ++ hs) bl from by rw [← hshape]]
    rw [clusterPass_eq_applySpec _ _ _ (by simp at hlen ⊢; omega)]
    rw [passMask_single [] hs 1 h hmin' (by simp) hb]
    rw [show List.length ([] : List ℚ) = 0 from rfl]
    rw [applySpec_single_run _ 0 orders 1 hs.length (le_refl 1) (by simp at hlen ⊢; omega)]
    rw [← hmin']
    simp
  · rw [show passHeights (h :: hs) = passHeights ([] ++ List.replicate 1 h ++ hs) from by
      rw [← hshape]]
    rw [passHeights_single [] hs 1 h hmin' (by simp) hb]
    simp

/-- The fully nested (left-nested, binary) bracket structure the specification
describes for a strictly increasing height sequence: each step merges the
first two tokens at the current (minimal) height. -/
def leftNest (bl : Bool) : List String → List ℚ → String
  | orders, [] => orders.headD ""
  | orders, h :: hs =>
    leftNest bl (mergeTok (orders.take 2) (nwkSuffix bl h) :: orders.drop 2) hs

theorem clusterFuel_strict : ∀ (heights : List ℚ) (orders : List String) (bl : Bool)
    (fuel : Nat), strictIncr heights = true → orders.length = heights.length + 1 →
    heights.length ≤ fuel →
    clusterFuel fuel orders heights bl = [leftNest bl orders heights] := by
  intro heights
  induction heights with
  | nil =>
    intro orders bl fuel _ hlen _
    match orders, hlen with
    | [o], _ => cases fuel <;> simp [clusterFuel, leftNest]
  | cons h hs ih =>
    intro orders bl fuel hsi hlen hfuel
    match fuel with
    | 0 => simp at hfuel
    | f + 1 =>
      obtain ⟨hpass, hheights⟩ := clusterPass_strict orders h hs bl hsi hlen
      rw [show clusterFuel (f + 1) orders (h :: hs) bl
        = clusterFuel f (clusterPass orders (h :: hs) bl) (passHeights (h :: hs)) bl
        from rfl]
      rw [hpass, hheights]
      rw [ih (mergeTok (orders.take 2) (nwkSuffix bl h) :: orders.drop 2) bl f
        (strictIncr_tail h hs hsi) (by simp at hlen ⊢; omega) (by simp at hfuel; omega)]
      rfl

/-! ### Bracket nesting depth -/

/-- One step of the parenthesis scanner: track current depth and the maximum
depth seen. -/
def pstep (st : Int × Int) (c : Char) : Int × Int :=
  if c = '(' then (st.1 + 1, max st.2 (st.1 + 1))
  else if c = ')' then (st.1 - 1, st.2) else st

/-- Scan a character list, tracking `(current depth, maximum depth)`. -/
def pscan (st : Int × Int) (cs : List Char) : Int × Int := cs.foldl pstep st

/-- Maximum bracket nesting depth of a string. -/
def maxDepth (s : String) : Nat := ((pscan (0, 0) s.data).2).toNat

theorem digitChar_ne_paren (d : Nat) : digitChar d ≠ '(' ∧ digitChar d ≠ ')' := by
  have h : (digitChar d).toNat = 48 + d ∨ (digitChar d).toNat = 0 := by
    unfold digitChar Char.ofNat
    by_cases hv : (48 + d).isValidChar
    · exact Or.inl (by rw [dif_pos hv]; rfl)
    · exact Or.inr (by rw [dif_neg hv]; rfl)
  constructor <;> intro hc <;> rw [hc] at h <;>
    simp only [show ('(' : Char).toNat = 40 from rfl,
      show (')' : Char).toNat = 41 from rfl] at h <;>
    omega

theorem pscan_append (st : Int × Int) (a b : List Char) :
    pscan st (a ++ b) = pscan (pscan st a) b := by
  simp [pscan]

theorem pstep_free (st : Int × Int) (c : Char) (h : c ≠ '(' ∧ c ≠ ')') : pstep st c = st := by
  simp [pstep, h.1, h.2]

theorem pscan_free : ∀ (cs : List Char), (∀ c ∈ cs, c ≠ '(' ∧ c ≠ ')') →
    ∀ st, pscan st cs = st := by
  intro cs
  induction cs with
  | nil => intro _ st; rfl
  | cons c t ih =>
    intro h st
    show pscan (pstep st c) t = st
    rw [pstep_free st c (h c (by simp))]
    exact ih (fun x hx => h x (by simp [hx])) st

theorem natStrAux_notParen : ∀ (fuel n : Nat), ∀ c ∈ natStrAux fuel n, c ≠ '(' ∧ c ≠ ')' := by
  intro fuel
  induction fuel with
  | zero => intro n c hc; simp [natStrAux] at hc
  | succ fuel ih =>
    intro n c hc
    match n with
    | 0 => simp [natStrAux] at hc
    | n + 1 =>
      rw [natStrAux] at hc
      rcases List.mem_append.mp hc with h1 | h1
      · exact ih _ c h1
      · have : c = digitChar ((n + 1) % 10) := by simpa using h1
        subst this
        exact digitChar_ne_paren _

theorem natStr_notParen (n : Nat) : ∀ c ∈ (natStr n).data, c ≠ '(' ∧ c ≠ ')' := by
  unfold natStr
  split
  · intro c hc
    have : c = '0' := by simpa using hc
    subst this
    exact ⟨by decide, by decide⟩
  · intro c hc
    exact natStrAux_notParen n n c (by simpa using hc)

theorem fracDigits_notParen : ∀ (fuel num den : Nat), ∀ c ∈ fracDigits fuel num den,
    c ≠ '(' ∧ c ≠ ')' := by
  intro fuel
  induction fuel with
  | zero =>
    intro num den c hc
    match num with
    | 0 => simp [fracDigits] at hc
    | _ + 1 => simp [fracDigits] at hc
  | succ fuel ih =>
    intro num den c hc
    match num with
    | 0 => simp [fracDigits] at hc
    | m + 1 =>
      rw [fracDigits] at hc
      rcases List.mem_cons.mp hc with h1 | h1
      · subst h1; exact digitChar_ne_paren _
      · exact ih _ den c h1

theorem data_append (a b : String) : (a ++ b).data = a.data ++ b.data := rfl

theorem pyFloatNN_notParen (q : ℚ) : ∀ c ∈ (pyFloatNN q).data, c ≠ '(' ∧ c ≠ ')' := by
  unfold pyFloatNN
  intro c hc
  rw [data_append, data_append] at hc
  rcases List.mem_append.mp hc with h1 | h1
  · rcases List.mem_append.mp h1 with h2 | h2
    · exact natStr_notParen _ c h2
    · have : c = '.' := by simpa using h2
      subst this
      exact ⟨by decide, by decide⟩
  · revert h1
    split
    · intro h1
      have : c = '0' := by simpa using h1
      subst this
      exact ⟨by decide, by decide⟩
    · intro h1
      exact fracDigits_notParen _ _ _ c (by simpa using h1)

theorem pyFloat_notParen (q : ℚ) : ∀ c ∈ (pyFloat q).data, c ≠ '(' ∧ c ≠ ')' := by
  unfold pyFloat
  split
  · intro c hc
    rw [data_append] at hc
    rcases List.mem_append.mp hc with h1 | h1
    · have : c = '-' := by simpa using h1
      subst this
      exact ⟨by decide, by decide⟩
    · exact pyFloatNN_notParen _ c h1
  · exact pyFloatNN_notParen _

theorem nwkSuffix_notParen (bl : Bool) (t : ℚ) :
    ∀ c ∈ (nwkSuffix bl t).data, c ≠ '(' ∧ c ≠ ')' := by
  unfold nwkSuffix
  split
  · intro c hc
    rw [data_append] at hc
    rcases List.mem_append.mp hc with h1 | h1
    · have : c = ':' := by simpa using h1
      subst this
      exact ⟨by decide, by decide⟩
    · exact pyFloat_notParen _ c h1
  · intro c hc
    simp at hc

/-- A balanced token of fixed contribution: scanning it from any state
`(c, mx)` with `c ≤ mx` returns to depth `c` having pushed the maximum to
`max mx (c + d)`. -/
def BalDepth (t : String) (d : Nat) : Prop :=
  ∀ c mx : Int, c ≤ mx → pscan (c, mx) t.data = (c, max mx (c + d))

theorem balDepth_free (t : String) (h : ∀ c ∈ t.data, c ≠ '(' ∧ c ≠ ')') : BalDepth t 0 := by
  intro c mx hle
  rw [pscan_free t.data h (c, mx)]
  rw [show (c : Int) + ((0 : Nat) : Int) = c by simp]
  rw [max_eq_left hle]

theorem balDepth_merge (t r nwk : String) (d : Nat) (ht : BalDepth t d)
    (hr : ∀ c ∈ r.data, c ≠ '(' ∧ c ≠ ')')
    (hnwk : ∀ c ∈ nwk.data, c ≠ '(' ∧ c ≠ ')') :
    BalDepth (mergeTok [t, r] nwk) (d + 1) := by
  intro c mx hle
  have hdata : (mergeTok [t, r] nwk).data
      = ['('] ++ (t.data ++ (nwk.data ++ ([','] ++ (r.data ++ (nwk.data ++ [')']))))) := by
    simp [mergeTok, pyJoin, data_append, List.append_assoc]
  rw [hdata, pscan_append]
  have h1 : pscan (c, mx) ['('] = (c + 1, max mx (c + 1)) := by simp [pscan, pstep]
  rw [h1, pscan_append, ht (c + 1) (max mx (c + 1)) (le_max_right _ _), pscan_append,
    pscan_free nwk.data hnwk, pscan_append, pscan_free [','] (by decide), pscan_append,
    pscan_free r.data hr, pscan_append, pscan_free nwk.data hnwk]
  have h2 : ∀ st : Int × Int, pscan st [')'] = (st.1 - 1, st.2) := by
    intro st; simp [pscan, pstep]
  rw [h2]
  have h3 : max (max mx (c + 1)) (c + 1 + (d : Int)) = max mx (c + ((d : Nat) + 1 : Nat)) := by
    rw [max_assoc, max_eq_right (by omega : (c + 1 : Int) ≤ c + 1 + (d : Int))]
    congr 1
    push_cast
    ring
  rw [show (c + 1 - 1 : Int) = c by ring, h3]

theorem leftNest_balDepth : ∀ (hs : List ℚ) (t : String) (rest : List String) (d : Nat)
    (bl : Bool), BalDepth t d →
    (∀ r ∈ rest, ∀ c ∈ r.data, c ≠ '(' ∧ c ≠ ')') →
    rest.length = hs.length →
    BalDepth (leftNest bl (t :: rest) hs) (d + hs.length) := by
  intro hs
  induction hs with
  | nil =>
    intro t rest d bl ht _ hlen
    have : rest = [] := List.eq_nil_of_length_eq_zero (by simpa using hlen)
    subst this
    simpa [leftNest] using ht
  | cons h hs ih =>
    intro t rest d bl ht hrest hlen
    rcases rest with _ | ⟨r, rest'⟩
    · simp at hlen
    rw [show leftNest bl (t :: r :: rest') (h :: hs)
      = leftNest bl (mergeTok [t, r] (nwkSuffix bl h) :: rest') hs from rfl]
    have hm := balDepth_merge t r (nwkSuffix bl h) d ht
      (hrest r (by simp)) (nwkSuffix_notParen bl h)
    have := ih (mergeTok [t, r] (nwkSuffix bl h)) rest' (d + 1) bl hm
      (fun x hx => hrest x (by simp [hx])) (by simpa using hlen)
    rw [show d + 1 + hs.length = d + (hs.length + 1) by omega] at this
    simpa using this

theorem maxDepth_of_balDepth (t : String) (d : Nat) (h : BalDepth t d) : maxDepth t = d := by
  unfold maxDepth
  rw [h 0 0 (le_refl 0)]
  simp

/-- C6: with a strictly increasing height sequence every clustering pass
performs exactly one binary merge (the first two tokens, at the head height),
the loop yields the fully nested left-nested binary bracket structure
`leftNest`, its bracket nesting depth equals the number of merges (the length
of the height sequence, given bracket-free tip labels), and
`planar_order_to_newick` returns that nested structure terminated by `";"`. -/
theorem claim_C6 (orders : List String) (heights : List ℚ) (bl : Bool)
    (hsi : strictIncr heights = true)
    (hlen : orders.length = heights.length + 1)
    (hfree : ∀ o ∈ orders, ∀ c ∈ o.data, c ≠ '(' ∧ c ≠ ')') :
    (∀ (h : ℚ) (hs : List ℚ), heights = h :: hs →
        clusterPass orders heights bl
          = mergeTok (orders.take 2) (nwkSuffix bl h) :: orders.drop 2)
      ∧ (∀ fuel, heights.length ≤ fuel →
          clusterFuel fuel orders heights bl = [leftNest bl orders heights])
      ∧ maxDepth (leftNest bl orders heights) = heights.length
      ∧ (∀ os hss : String, pySplit ',' os = orders → npFromString ',' hss = heights →
          planar_order_to_newick os hss bl = leftNest bl orders heights ++ ";") := by
  refine ⟨?_, ?_, ?_, ?_⟩
  · intro h hs hh
    subst hh
    exact (clusterPass_strict orders h hs bl hsi hlen).1
  · intro fuel hfuel
    exact clusterFuel_strict heights orders bl fuel hsi hlen hfuel
  · rcases orders with _ | ⟨t, rest⟩
    · simp at hlen
    have hbd := leftNest_balDepth heights t rest 0 bl
      (balDepth_free t (hfree t (by simp)))
      (fun r hrr => hfree r (by simp [hrr])) (by simp at hlen; omega)
    have hmd := maxDepth_of_balDepth _ _ hbd
    simpa using hmd
  · intro os hss hos hhs
    unfold planar_order_to_newick
    rw [hos, hhs]
    show (clusterFuel heights.length orders heights bl).headD "" ++ ";" = _
    rw [clusterFuel_strict heights orders bl heights.length hsi hlen (le_refl _)]
    rfl

theorem claim_C6_witness :
    (∀ (h : ℚ) (hs : List ℚ), ([1, 2] : List ℚ) = h :: hs →
        clusterPass ["A", "B", "C"] [1, 2] false
          = mergeTok (["A", "B", "C"].take 2) (nwkSuffix false h) :: ["A", "B", "C"].drop 2)
      ∧ (∀ fuel, ([1, 2] : List ℚ).length ≤ fuel →
          clusterFuel fuel ["A", "B", "C"] [1, 2] false
            = [leftNest false ["A", "B", "C"] [1, 2]])
      ∧ maxDepth (leftNest false ["A", "B", "C"] [1, 2]) = ([1, 2] : List ℚ).length
      ∧ (∀ os hss : String, pySplit ',' os = ["A", "B", "C"] →
          npFromString ',' hss = [1, 2] →
          planar_order_to_newick os hss false
            = leftNest false ["A", "B", "C"] [1, 2] ++ ";") :=
  claim_C6 ["A", "B", "C"] [1, 2] false (by decide) (by decide) (by decide)

/-! ### The Nexus converters

File contents are lists of lines (trailing newlines stripped; for
`newicks_to_nexus` the list is in the order produced by the backward-reading
iterator).  Everything printed to the output handle is collected as a list of
chunks, one chunk per `print` call; `seq_length` enters pre-rendered, as
`str(seq_length)` does in the source.  Python exceptions become an explicit
error value, and output already printed when an exception is raised is kept,
as the source leaves it in the file. -/

/-- The Python exceptions the converters can raise. -/
inductive PyErr where
  | valueError (msg : String)
  | indexError
  | assertError
  | stopIteration
  | unboundLocalError
deriving DecidableEq

/-- End state of the planar record loop: the buffered record, the last height
text read and the site counter, or the exception that ended the loop. -/
inductive ScanEnd where
  | fin (buffered : String × String) (height : String) (site : Nat)
  | err (e : PyErr)
deriving DecidableEq

/-- `print("TREE", tag, "=", tree, sep=" ", end=...)`: the terminator is a
bare newline when the tree text already ends in `';'`, else `";\n"`. -/
def treeLine (tag tree : String) : String :=
  "TREE " ++ tag ++ " = " ++ tree ++ (if pyEndsWith tree ";" then "\n" else ";\n")

/-- `"argentum bug hit: {} trees but {} sites".format(site, len(positions))`. -/
def accountingMsg (trees sites : Nat) : String :=
  "argentum bug hit: " ++ natStr trees ++ " trees but " ++ natStr sites ++ " sites"

/-- The record loop of `planar_to_nexus`: skip lines not starting with a
digit, read (order, height) line pairs, flush the buffered pair as a `TREE`
chunk when the incoming pair differs, count sites.  A trailing order line
without its height line is the source's `next(fh)` raising `StopIteration`;
at a flush the tree text is built first (its in-place merge can raise
`IndexError`), then the position index is consulted (a lookup past its end is
the source's other `IndexError`). -/
def planarScan : List String → (String × String) → String → Nat → List ℚ →
    List String × ScanEnd
  | [], buf, height, site, _ => ([], .fin buf height site)
  | [line], buf, height, site, _ =>
    if startsWithDigit line then ([], .err .stopIteration)
    else ([], .fin buf height site)
  | line :: hline :: rest2, buf, height, site, pos =>
    if startsWithDigit line then
      let order := pyRstrip line
      let h := pyRstrip hline
      if (order, h) ≠ buf then
        if buf.1 ≠ "" then
          match planar_order_to_newickE buf.1 buf.2 true with
          | none => ([], .err .indexError)
          | some t =>
            match pos[site]? with
            | none => ([], .err .indexError)
            | some p =>
              let out := planarScan rest2 (order, h) h (site + 1) pos
              (treeLine (pyFloat p) t :: out.1, out.2)
        else planarScan rest2 (order, h) h (site + 1) pos
      else planarScan rest2 buf h (site + 1) pos
    else planarScan (hline :: rest2) buf height site pos

/-- `planar_to_nexus(argentum_planar_file, variant_positions, seq_length,
outfilehandle)`; the result is the list of printed chunks paired with the
exception that aborted the conversion, if any. -/
def planar_to_nexus (lines : List String) (variant_positions : List ℚ)
    (seqLengthStr : String) : List String × Option PyErr :=
  match planarScan lines ("", "") "" 0 variant_positions with
  | (chunks, .err e) => ("#NEXUS\nBEGIN TREES;\n" :: chunks, some e)
  | (chunks, .fin buf height site) =>
    if site ≠ variant_positions.length then
      ("#NEXUS\nBEGIN TREES;\n" :: chunks,
        some (.valueError (accountingMsg site variant_positions.length)))
    else if height ≠ "" then
      match planar_order_to_newickE buf.1 buf.2 true with
      | none => ("#NEXUS\nBEGIN TREES;\n" :: chunks, some .indexError)
      | some t =>
        (("#NEXUS\nBEGIN TREES;\n" :: (chunks ++ [treeLine seqLengthStr t]))
          ++ ["END;\n"], none)
    else (("#NEXUS\nBEGIN TREES;\n" :: chunks) ++ ["END;\n"], none)

/-- The `TRANSLATE` block text of `newicks_to_nexus`:
`"TRANSLATE\n" + ",\n".join("{} {}".format(i+1, i) for i in range(num_tips)) + ";"`. -/
def translateBlock (num_tips : Nat) : String :=
  "TRANSLATE\n"
    ++ pyJoin ",\n" ((List.range num_tips).map (fun i => natStr (i + 1) ++ " " ++ natStr i))
    ++ ";"

/-- End state of the reverse-form loop: buffered tree text and site counter,
or the exception that ended the loop. -/
inductive NScanEnd where
  | fin (buffered : String) (site : Nat)
  | err (e : PyErr)
deriving DecidableEq

/-- The record loop of `newicks_to_nexus`: a line whose first character is
not `'['` is skipped; a line starting with `'['` must start with the full
sentinel `"[0]"` (otherwise the source's `assert` fails); the text after the
sentinel is the tree record, run-merged exactly as in the planar loop.  An
empty line is the source's `line[0]` raising `IndexError`. -/
def newicksScan : List String → String → Nat → List ℚ → List String × NScanEnd
  | [], buf, site, _ => ([], .fin buf site)
  | line :: rest, buf, site, pos =>
    match line.data with
    | [] => ([], .err .indexError)
    | c :: _ =>
      if c ≠ '[' then newicksScan rest buf site pos
      else if ¬ pyStartsWith line "[0]" then ([], .err .assertError)
      else
        let t := pyDrop line 3
        if buf ≠ t then
          if buf ≠ "" then
            match pos[site]? with
            | none => ([], .err .indexError)
            | some p =>
              let out := newicksScan rest t (site + 1) pos
              (treeLine (pyFloat p) buf :: out.1, out.2)
          else newicksScan rest t (site + 1) pos
        else newicksScan rest buf (site + 1) pos

/-- `newicks_to_nexus(argentum_newicks_file, variant_positions, seq_length,
num_tips, outfilehandle)`; `lines` is the sequence the backward-reading
iterator yields. -/
def newicks_to_nexus (lines : List String) (variant_positions : List ℚ)
    (seqLengthStr : String) (num_tips : Nat) : List String × Option PyErr :=
  match newicksScan lines "" 0 variant_positions with
  | (chunks, .err e) =>
    ("#NEXUS\nBEGIN TREES;\n" :: (translateBlock num_tips ++ "\n") :: chunks, some e)
  | (chunks, .fin buf site) =>
    if site ≠ variant_positions.length then
      ("#NEXUS\nBEGIN TREES;\n" :: (translateBlock num_tips ++ "\n") :: chunks,
        some (.valueError (accountingMsg site variant_positions.length)))
    else
      let chunks2 := if buf ≠ "" then chunks ++ [treeLine seqLengthStr buf] else chunks
      (("#NEXUS\nBEGIN TREES;\n" :: (translateBlock num_tips ++ "\n") :: chunks2)
        ++ ["END;\n"], none)

/-- `variant_positions_from_fn`: only the first line is examined (the loop
returns inside its first iteration); a parse failure runs the `except` branch,
which logs and then executes `return positions` with `positions` never bound,
so `UnboundLocalError` propagates; an empty file returns `None`. -/
def variant_positions_from_fn (lines : List String) : Except PyErr (Option (List ℚ)) :=
  match lines with
  | [] => .ok none
  | line :: _ =>
    match npFromStringStrict ' ' (pyRstrip line) with
    | some ps => .ok (some ps)
    | none => .error .unboundLocalError

example : planar_to_nexus [] [] "10" = (["#NEXUS\nBEGIN TREES;\n", "END;\n"], none) := by
  decide
example : translateBlock 3 = "TRANSLATE\n1 0,\n2 1,\n3 2;" := by decide
example : planar_to_nexus ["0,1", "1", "0,1", "2"] [5] "10"
    = (["#NEXUS\nBEGIN TREES;\n"], some .indexError) := by decide
example : planar_to_nexus ["0,1", "1", "0,1", "1", "2,0", "1"] [5, 7, 9] "10"
    = (["#NEXUS\nBEGIN TREES;\n",
        "TREE 9.0 = (0:1.0,1:1.0);\n",
        "TREE 10 = (2:1.0,0:1.0);\n",
        "END;\n"], none) := by decide
example : newicks_to_nexus ["[0](1,2);", "comment", "[0](1,2);"] [5, 7] "10" 2
    = (["#NEXUS\nBEGIN TREES;\n", "TRANSLATE\n1 0,\n2 1;\n",
        "TREE 10 = (1,2);\n", "END;\n"], none) := by decide
example : variant_positions_from_fn ["abc"] = .error .unboundLocalError := rfl
example : variant_positions_from_fn ["1.5 2.5 "]
    = .ok (some [Rat.divInt 3 2, Rat.divInt 5 2]) := rfl

/-- C8 is right and the code is wrong: the source catches the parse exception
in order to log and continue, but then executes `return positions` with
`positions` never assigned, so an `UnboundLocalError` propagates to the
caller instead of the call returning without a value. -/
theorem claim_C8 :
    variant_positions_from_fn ["abc"] = Except.error PyErr.unboundLocalError
      ∧ npFromStringStrict ' ' (pyRstrip "abc") = none
      ∧ variant_positions_from_fn [] = Except.ok none :=
  ⟨rfl, rfl, rfl⟩

/-- C9: the `TRANSLATE` block lists the pairs `k k-1` for `k = 1..n`, joined
by comma-newline and terminated by a semicolon; for tip count 3 it is exactly
`"TRANSLATE\n1 0,\n2 1,\n3 2;"`. -/
theorem claim_C9 :
    (∀ n : Nat, translateBlock n
        = "TRANSLATE\n"
          ++ pyJoin ",\n"
              ((List.range' 1 n).map (fun k => natStr k ++ " " ++ natStr (k - 1)))
          ++ ";")
      ∧ translateBlock 3 = "TRANSLATE\n1 0,\n2 1,\n3 2;" := by
  refine ⟨?_, by decide⟩
  intro n
  unfold translateBlock
  have hmap : (List.range n).map (fun i => natStr (i + 1) ++ " " ++ natStr i)
      = (List.range' 1 n).map (fun k => natStr k ++ " " ++ natStr (k - 1)) := by
    rw [List.range'_eq_map_range, List.map_map]
    apply List.map_congr_left
    intro i _
    simp [Function.comp, Nat.add_comm 1 i]
  rw [hmap]

theorem planarScan_skip_all : ∀ (lines : List String),
    (∀ l ∈ lines, startsWithDigit l = false) →
    ∀ (buf : String × String) (height : String) (site : Nat) (pos : List ℚ),
    planarScan lines buf height site pos = ([], .fin buf height site) := by
  intro lines
  induction lines with
  | nil => intros; rfl
  | cons l rest ih =>
    intro h buf height site pos
    cases rest with
    | nil => simp [planarScan, h l (by simp)]
    | cons l2 rest2 =>
      rw [show planarScan (l :: l2 :: rest2) buf height site pos
        = planarScan (l2 :: rest2) buf height site pos from by
          simp [planarScan, h l (by simp)]]
      exact ih (fun x hx => h x (by simp [hx])) buf height site pos

/-- C10: with no data lines and an empty position index, `planar_to_nexus`
emits only the Nexus envelope (`#NEXUS`, `BEGIN TREES;`, `END;`), no `TREE`
statement, and raises nothing. -/
theorem claim_C10 (lines : List String) (seqLengthStr : String)
    (h : ∀ l ∈ lines, startsWithDigit l = false) :
    planar_to_nexus lines [] seqLengthStr = (["#NEXUS\nBEGIN TREES;\n", "END;\n"], none)
      ∧ String.join (planar_to_nexus lines [] seqLengthStr).1
        = "#NEXUS\nBEGIN TREES;\nEND;\n" := by
  have hp : planar_to_nexus lines [] seqLengthStr
      = (["#NEXUS\nBEGIN TREES;\n", "END;\n"], none) := by
    unfold planar_to_nexus
    rw [planarScan_skip_all lines h ("", "") "" 0 []]
    simp
  refine ⟨hp, ?_⟩
  rw [hp]
  rfl

theorem claim_C10_witness :
    planar_to_nexus ["foo"] [] "10" = (["#NEXUS\nBEGIN TREES;\n", "END;\n"], none)
      ∧ String.join (planar_to_nexus ["foo"] [] "10").1 = "#NEXUS\nBEGIN TREES;\nEND;\n" :=
  claim_C10 ["foo"] "10" (by decide)

/-- C5: in the reverse-form loop a line whose first character matches the
sentinel's `'['` but which does not start with the full `"[0]"` aborts the
scan immediately with the assert failure (no further line is processed and
`newicks_to_nexus` surfaces the error after the output written so far), while
a line whose first character differs is skipped without touching the state. -/
theorem claim_C5 :
    (∀ (l : String) (rest : List String) (buf : String) (site : Nat) (pos : List ℚ)
        (c : Char) (cs : List Char), l.data = c :: cs →
        ((c = '[' ∧ pyStartsWith l "[0]" = false) →
          newicksScan (l :: rest) buf site pos = ([], .err .assertError))
        ∧ (c ≠ '[' → newicksScan (l :: rest) buf site pos = newicksScan rest buf site pos))
      ∧ (∀ (lines : List String) (pos : List ℚ) (seqLengthStr : String) (num_tips : Nat)
          (chunks : List String),
          newicksScan lines "" 0 pos = (chunks, .err .assertError) →
          newicks_to_nexus lines pos seqLengthStr num_tips
            = ("#NEXUS\nBEGIN TREES;\n" :: (translateBlock num_tips ++ "\n") :: chunks,
                some .assertError)) := by
  constructor
  · intro l rest buf site pos c cs hdata
    constructor
    · rintro ⟨hc, hns⟩
      subst hc
      simp only [newicksScan, hdata]
      simp [hns]
    · intro hc
      simp only [newicksScan, hdata]
      simp [hc]
  · intro lines pos s t chunks hscan
    unfold newicks_to_nexus
    rw [hscan]

theorem claim_C5_witness :
    (newicksScan ["[1]bad", "[0]t;"] "" 0 [] = ([], .err .assertError)
      ∧ newicksScan ["xyz", "[0]t;"] "" 0 [] = newicksScan ["[0]t;"] "" 0 [])
      ∧ newicks_to_nexus ["[1]bad"] [] "10" 2
        = ("#NEXUS\nBEGIN TREES;\n" :: (translateBlock 2 ++ "\n") :: [],
            some .assertError) :=
  ⟨⟨(claim_C5.1 "[1]bad" ["[0]t;"] "" 0 [] '[' _ rfl).1 ⟨rfl, by decide⟩,
    (claim_C5.1 "xyz" ["[0]t;"] "" 0 [] 'x' _ rfl).2 (by decide)⟩,
   claim_C5.2 ["[1]bad"] [] "10" 2 [] (by decide)⟩

/-! ### Run-merging, record level

`planarRecords` extracts the (order, height) pairs the planar loop reads;
`recordScan` is the same loop over extracted records; `wellPaired` rules out a
trailing order line with no height line (on which the source raises
`StopIteration`). -/

/-- The (order, height) record pairs read by the planar loop. -/
def planarRecords : List String → List (String × String)
  | [] => []
  | [_] => []
  | line :: hline :: rest2 =>
    if startsWithDigit line then (pyRstrip line, pyRstrip hline) :: planarRecords rest2
    else planarRecords (hline :: rest2)

/-- Every data line has its height line. -/
def wellPaired : List String → Bool
  | [] => true
  | [line] => !startsWithDigit line
  | line :: hline :: rest2 =>
    if startsWithDigit line then wellPaired rest2 else wellPaired (hline :: rest2)

/-- The planar loop acting directly on extracted records. -/
def recordScan : List (String × String) → (String × String) → String → Nat → List ℚ →
    List String × ScanEnd
  | [], buf, height, site, _ => ([], .fin buf height site)
  | r :: rest, buf, _height, site, pos =>
    if r ≠ buf then
      if buf.1 ≠ "" then
        match planar_order_to_newickE buf.1 buf.2 true with
        | none => ([], .err .indexError)
        | some t =>
          match pos[site]? with
          | none => ([], .err .indexError)
          | some p =>
            let out := recordScan rest r r.2 (site + 1) pos
            (treeLine (pyFloat p) t :: out.1, out.2)
      else recordScan rest r r.2 (site + 1) pos
    else recordScan rest buf r.2 (site + 1) pos

theorem planarScan_factor : ∀ (n : Nat) (lines : List String), lines.length ≤ n →
    wellPaired lines = true →
    ∀ (buf : String × String) (height : String) (site : Nat) (pos : List ℚ),
    planarScan lines buf height site pos
      = recordScan (planarRecords lines) buf height site pos := by
  intro n
  induction n with
  | zero =>
    intro lines hn _ buf height site pos
    have : lines = [] := List.eq_nil_of_length_eq_zero (by omega)
    subst this
    rfl
  | succ n ih =>
    intro lines hn hwp buf height site pos
    match lines with
    | [] => rfl
    | [line] =>
      have hd : startsWithDigit line = false := by
        simpa [wellPaired] using hwp
      simp [planarScan, planarRecords, recordScan, hd]
    | line :: hline :: rest2 =>
      by_cases hd : startsWithDigit line = true
      · have hwp2 : wellPaired rest2 = true := by
          simpa [wellPaired, hd] using hwp
        have hrec := fun (b : String × String) (h : String) (s : Nat) =>
          ih rest2 (by simp at hn ⊢; omega) hwp2 b h s pos
        simp only [planarScan, planarRecords, hd, if_true]
        by_cases hne : (pyRstrip line, pyRstrip hline) = buf
        · simp [recordScan, hne, hrec]
        · by_cases hbuf : buf.1 = ""
          · simp [recordScan, hne, hbuf, hrec]
          · cases hpos : pos[site]? with
            | none => simp [recordScan, hne, hbuf, hpos]
            | some p => simp [recordScan, hne, hbuf, hpos, hrec]
      · have hd' : startsWithDigit line = false := by simpa using hd
        have hwp2 : wellPaired (hline :: rest2) = true := by
          simpa [wellPaired, hd'] using hwp
        rw [show planarScan (line :: hline :: rest2) buf height site pos
          = planarScan (hline :: rest2) buf height site pos from by
            simp [planarScan, hd']]
        rw [show planarRecords (line :: hline :: rest2) = planarRecords (hline :: rest2)
          from by simp [planarRecords, hd']]
        exact ih (hline :: rest2) (by simp at hn ⊢; omega) hwp2 buf height site pos

/-- Maximal runs of consecutive equal values, as (value, size) pairs. -/
def groupRuns {α : Type} [DecidableEq α] : List α → List (α × Nat)
  | [] => []
  | a :: rest =>
    match groupRuns rest with
    | (b, m) :: gs => if a = b then (b, m + 1) :: gs else (a, 1) :: (b, m) :: gs
    | [] => [(a, 1)]

/-- Expand runs back into the record stream. -/
def flattenG {α : Type} : List (α × Nat) → List α
  | [] => []
  | (v, m) :: G => List.replicate m v ++ flattenG G

/-- Total number of sites covered by the runs. -/
def sizeSum {α : Type} : List (α × Nat) → Nat
  | [] => 0
  | (_, m) :: G => m + sizeSum G

theorem groupRuns_cons_nil {α : Type} [DecidableEq α] (a : α) (rest : List α)
    (hg : groupRuns rest = []) : groupRuns (a :: rest) = [(a, 1)] := by
  rw [groupRuns, hg]

theorem groupRuns_cons_cons {α : Type} [DecidableEq α] (a b : α) (m : Nat)
    (gs : List (α × Nat)) (rest : List α) (hg : groupRuns rest = (b, m) :: gs) :
    groupRuns (a :: rest)
      = if a = b then (b, m + 1) :: gs else (a, 1) :: (b, m) :: gs := by
  rw [groupRuns, hg]

theorem flattenG_nil {α : Type} : flattenG ([] : List (α × Nat)) = [] := rfl

theorem flattenG_cons {α : Type} (v : α) (m : Nat) (G : List (α × Nat)) :
    flattenG ((v, m) :: G) = List.replicate m v ++ flattenG G := rfl

theorem sizeSum_nil {α : Type} : sizeSum ([] : List (α × Nat)) = 0 := rfl

theorem sizeSum_cons {α : Type} (v : α) (m : Nat) (G : List (α × Nat)) :
    sizeSum ((v, m) :: G) = m + sizeSum G := rfl

theorem flattenG_groupRuns {α : Type} [DecidableEq α] : ∀ (l : List α),
    flattenG (groupRuns l) = l := by
  intro l
  induction l with
  | nil => rfl
  | cons a rest ih =>
    cases hg : groupRuns rest with
    | nil =>
      rw [hg, flattenG_nil] at ih
      rw [groupRuns_cons_nil a rest hg, flattenG_cons, flattenG_nil, ← ih]
      rfl
    | cons bm gs =>
      obtain ⟨b, m⟩ := bm
      rw [hg] at ih
      rw [groupRuns_cons_cons a b m gs rest hg]
      by_cases hab : a = b
      · subst hab
        rw [if_pos rfl, flattenG_cons, List.replicate_succ, List.cons_append]
        rw [flattenG_cons] at ih
        exact congrArg (a :: ·) ih
      · rw [if_neg hab, flattenG_cons, ih]
        simp

theorem length_flattenG {α : Type} : ∀ (G : List (α × Nat)),
    (flattenG G).length = sizeSum G := by
  intro G
  induction G with
  | nil => rfl
  | cons vm G ih =>
    obtain ⟨v, m⟩ := vm
    simp [flattenG_cons, sizeSum_cons, ih]

theorem sizeSum_groupRuns {α : Type} [DecidableEq α] (l : List α) :
    sizeSum (groupRuns l) = l.length := by
  rw [← length_flattenG, flattenG_groupRuns]

theorem groupRuns_val_mem {α : Type} [DecidableEq α] : ∀ (l : List α) (v : α) (m : Nat),
    (v, m) ∈ groupRuns l → v ∈ l := by
  intro l
  induction l with
  | nil => intro v m h; simp [groupRuns] at h
  | cons a rest ih =>
    intro v m h
    cases hg : groupRuns rest with
    | nil =>
      rw [groupRuns_cons_nil a rest hg] at h
      simp at h
      simp [h.1]
    | cons bm gs =>
      obtain ⟨b, j⟩ := bm
      rw [groupRuns_cons_cons a b j gs rest hg] at h
      by_cases hab : a = b
      · subst hab
        rw [if_pos rfl] at h
        rcases List.mem_cons.mp h with h1 | h1
        · have : v = a := by simpa using congrArg Prod.fst h1
          simp [this]
        · have : (v, m) ∈ groupRuns rest := by rw [hg]; exact List.mem_cons_of_mem _ h1
          exact List.mem_cons_of_mem _ (ih v m this)
      · rw [if_neg hab] at h
        rcases List.mem_cons.mp h with h1 | h1
        · have : v = a := by simpa using congrArg Prod.fst h1
          simp [this]
        · have : (v, m) ∈ groupRuns rest := by rw [hg]; exact h1
          exact List.mem_cons_of_mem _ (ih v m this)

/-- Well-formedness of a run list: positive sizes, nonempty order strings,
and distinct adjacent values. -/
def groupsWF : List ((String × String) × Nat) → Prop
  | [] => True
  | [(v, m)] => 1 ≤ m ∧ v.1 ≠ ""
  | (v, m) :: (w, j) :: G => 1 ≤ m ∧ v.1 ≠ "" ∧ v ≠ w ∧ groupsWF ((w, j) :: G)

theorem groupRuns_wf : ∀ (rs : List (String × String)), (∀ r ∈ rs, r.1 ≠ "") →
    groupsWF (groupRuns rs) := by
  intro rs
  induction rs with
  | nil => intro _; trivial
  | cons a rest ih =>
    intro h
    have hwf := ih (fun r hr => h r (by simp [hr]))
    cases hg : groupRuns rest with
    | nil => rw [groupRuns_cons_nil a rest hg]; exact ⟨by omega, h a (by simp)⟩
    | cons bm gs =>
      obtain ⟨b, j⟩ := bm
      rw [hg] at hwf
      rw [groupRuns_cons_cons a b j gs rest hg]
      by_cases hab : a = b
      · subst hab
        rw [if_pos rfl]
        cases gs with
        | nil => exact ⟨by omega, hwf.2⟩
        | cons wk G =>
          obtain ⟨w, k⟩ := wk
          exact ⟨by omega, hwf.2.1, hwf.2.2.1, hwf.2.2.2⟩
      · rw [if_neg hab]
        exact ⟨by omega, h a (by simp), hab, hwf⟩

theorem posEntrySome (pos : List ℚ) (s : Nat) (hs : s < pos.length) :
    pos[s]? = some (pos.getD s 0) := by
  cases hq : pos[s]? with
  | none =>
    rw [List.getElem?_eq_none_iff] at hq
    omega
  | some p =>
    rw [List.getD_eq_getElem?_getD, hq]
    rfl

theorem recordScan_run : ∀ (m : Nat) (v : String × String) (rest : List (String × String))
    (h : String) (s : Nat) (pos : List ℚ),
    recordScan (List.replicate m v ++ rest) v h s pos
      = recordScan rest v (if m = 0 then h else v.2) (s + m) pos := by
  intro m
  induction m with
  | zero => intro v rest h s pos; simp
  | succ m ih =>
    intro v rest h s pos
    rw [List.replicate_succ, List.cons_append, recordScan]
    rw [if_neg (show ¬ v ≠ v by simp)]
    rw [ih v rest v.2 (s + 1) pos]
    rw [show (if m = 0 then v.2 else v.2) = v.2 from by split <;> rfl]
    rw [show (if m + 1 = 0 then h else v.2) = v.2 from by simp]
    congr 1
    omega

/-- The `TREE` chunks flushed while scanning a run list with `b` buffered at
site `s`: the buffered record is flushed at the position of the first site of
each following run. -/
def scanChunksFrom (pos : List ℚ) : (String × String) → Nat →
    List ((String × String) × Nat) → List String
  | _, _, [] => []
  | b, s, (v, m) :: G =>
    treeLine (pyFloat (pos.getD s 0)) (planar_order_to_newick b.1 b.2 true)
      :: scanChunksFrom pos v (s + m) G

/-- The record buffered when the scan of the runs `G` that started with `b`
buffered has finished. -/
def lastVal (b : String × String) (G : List ((String × String) × Nat)) : String × String :=
  (G.map (fun g => g.1)).getLastD b

theorem lastVal_cons (b v : String × String) (m : Nat)
    (G : List ((String × String) × Nat)) : lastVal b ((v, m) :: G) = lastVal v G := by
  unfold lastVal
  rw [List.map_cons]
  exact List.getLastD_cons b v _

theorem lastVal_mem : ∀ (G : List ((String × String) × Nat)) (v : String × String),
    lastVal v G = v ∨ ∃ k, (lastVal v G, k) ∈ G := by
  intro G
  induction G with
  | nil => intro v; left; rfl
  | cons wk G' ih =>
    obtain ⟨w, k⟩ := wk
    intro v
    rw [lastVal_cons]
    rcases ih w with h1 | h1
    · right; exact ⟨k, by rw [h1]; simp⟩
    · right
      obtain ⟨k', hk'⟩ := h1
      exact ⟨k', by simp [hk']⟩

theorem groupsWF_head {v : String × String} {m : Nat}
    {G : List ((String × String) × Nat)} (h : groupsWF ((v, m) :: G)) :
    1 ≤ m ∧ v.1 ≠ "" := by
  cases G with
  | nil => exact ⟨h.1, h.2⟩
  | cons wk G' =>
    obtain ⟨w, k⟩ := wk
    exact ⟨h.1, h.2.1⟩

theorem groupsWF_tail {v : String × String} {m : Nat}
    {G : List ((String × String) × Nat)} (h : groupsWF ((v, m) :: G)) : groupsWF G := by
  cases G with
  | nil => trivial
  | cons wk G' =>
    obtain ⟨w, k⟩ := wk
    exact h.2.2.2

theorem groupsWF_head_ne {v w : String × String} {m k : Nat}
    {G : List ((String × String) × Nat)} (h : groupsWF ((v, m) :: (w, k) :: G)) :
    v ≠ w := h.2.2.1

theorem scan_groups_go : ∀ (G : List ((String × String) × Nat)), groupsWF G →
    ∀ (b : String × String) (h : String) (s : Nat) (pos : List ℚ),
    b.1 ≠ "" → recordWF b = true →
    (∀ v m, (v, m) ∈ G → recordWF v = true) →
    (∀ v m G', G = (v, m) :: G' → v ≠ b) →
    s + sizeSum G ≤ pos.length →
    recordScan (flattenG G) b h s pos
      = (scanChunksFrom pos b s G,
          .fin (lastVal b G) (if G = [] then h else (lastVal b G).2) (s + sizeSum G)) := by
  intro G
  induction G with
  | nil =>
    intro _ b h s pos _ _ _ _ _
    simp [flattenG_nil, recordScan, scanChunksFrom, lastVal, sizeSum_nil]
  | cons vm G' ih =>
    obtain ⟨v, m⟩ := vm
    intro hwf b h s pos hb hbwf hGwf hne hlen
    have hvb : v ≠ b := hne v m G' rfl
    have hvwf : recordWF v = true := hGwf v m (by simp)
    have hGwf' : ∀ w k, (w, k) ∈ G' → recordWF w = true :=
      fun w k hk => hGwf w k (List.mem_cons_of_mem _ hk)
    obtain ⟨hm, hv1⟩ := groupsWF_head hwf
    have hwf' := groupsWF_tail hwf
    obtain ⟨m', rfl⟩ : ∃ m', m = m' + 1 := ⟨m - 1, by omega⟩
    rw [flattenG_cons, List.replicate_succ, List.cons_append, recordScan]
    rw [if_pos (show v ≠ b from hvb), if_pos (show b.1 ≠ "" from hb)]
    rw [newickE_of_wf b hbwf]
    have hs : s < pos.length := by rw [sizeSum_cons] at hlen; omega
    rw [posEntrySome pos s hs]
    have hnext : ∀ w k G'', G' = (w, k) :: G'' → w ≠ v := by
      intro w k G'' hG'
      subst hG'
      exact (groupsWF_head_ne hwf).symm
    have hlen' : s + 1 + m' + sizeSum G' ≤ pos.length := by
      rw [sizeSum_cons] at hlen
      omega
    simp only
    rw [recordScan_run m' v (flattenG G') v.2 (s + 1) pos]
    rw [show (if m' = 0 then v.2 else v.2) = v.2 from by split <;> rfl]
    rw [ih hwf' v v.2 (s + 1 + m') pos hv1 hvwf hGwf' hnext hlen']
    rw [show (if G' = [] then v.2 else (lastVal v G').2) = (lastVal v G').2 from by
      cases G' <;> simp [lastVal]]
    rw [show scanChunksFrom pos b s ((v, m' + 1) :: G')
      = treeLine (pyFloat (pos.getD s 0)) (planar_order_to_newick b.1 b.2 true)
          :: scanChunksFrom pos v (s + (m' + 1)) G' from rfl]
    rw [lastVal_cons]
    rw [show (if (v, m' + 1) :: G' = ([] : List ((String × String) × Nat)) then h
        else (lastVal v G').2) = (lastVal v G').2 from by simp]
    rw [sizeSum_cons]
    rw [show s + 1 + m' = s + (m' + 1) by omega,
      show s + (m' + 1) + sizeSum G' = s + (m' + 1 + sizeSum G') by omega]

theorem recordScan_groups_top (rs : List (String × String)) (pos : List ℚ)
    (hvals : ∀ r ∈ rs, r.1 ≠ "") (hwfs : ∀ r ∈ rs, recordWF r = true)
    (hlen : rs.length ≤ pos.length)
    (v : String × String) (m : Nat) (G' : List ((String × String) × Nat))
    (hg : groupRuns rs = (v, m) :: G') :
    recordScan rs ("", "") "" 0 pos
      = (scanChunksFrom pos v m G',
          .fin (lastVal v G') ((lastVal v G').2) (sizeSum ((v, m) :: G'))) := by
  have hvwf : recordWF v = true :=
    hwfs v (groupRuns_val_mem rs v m (by rw [hg]; simp))
  have hGwf' : ∀ w k, (w, k) ∈ G' → recordWF w = true := fun w k hk =>
    hwfs w (groupRuns_val_mem rs w k (by rw [hg]; exact List.mem_cons_of_mem _ hk))
  have hwf : groupsWF ((v, m) :: G') := by rw [← hg]; exact groupRuns_wf rs hvals
  obtain ⟨hm, hv1⟩ := groupsWF_head hwf
  have hwf' := groupsWF_tail hwf
  have hflat : flattenG ((v, m) :: G') = rs := by rw [← hg]; exact flattenG_groupRuns rs
  have hsz : sizeSum ((v, m) :: G') = rs.length := by
    rw [← hg, sizeSum_groupRuns]
  obtain ⟨m', rfl⟩ : ∃ m', m = m' + 1 := ⟨m - 1, by omega⟩
  conv_lhs => rw [← hflat]
  rw [flattenG_cons, List.replicate_succ, List.cons_append, recordScan]
  rw [if_pos (show v ≠ ("", "") from fun heq => hv1 (by rw [heq]))]
  rw [if_neg (show ¬ ("", "").1 ≠ "" by simp)]
  rw [recordScan_run m' v (flattenG G') v.2 1 pos]
  rw [show (if m' = 0 then v.2 else v.2) = v.2 from by split <;> rfl]
  have hnext : ∀ w k G'', G' = (w, k) :: G'' → w ≠ v := by
    intro w k G'' hG'
    subst hG'
    exact (groupsWF_head_ne hwf).symm
  have hlen' : 1 + m' + sizeSum G' ≤ pos.length := by
    rw [sizeSum_cons] at hsz
    omega
  rw [scan_groups_go G' hwf' v v.2 (1 + m') pos hv1 hvwf hGwf' hnext hlen']
  rw [show (if G' = [] then v.2 else (lastVal v G').2) = (lastVal v G').2 from by
    cases G' <;> simp [lastVal]]
  rw [sizeSum_cons]
  rw [show (1 : Nat) + m' = m' + 1 by omega,
    show m' + 1 + sizeSum G' = m' + 1 + sizeSum G' from rfl]

/-- The `TREE` chunks `planar_to_nexus` prints for a run list starting at
absolute site `s`: every run except the last is tagged with the position-index
entry of the first site after it, the last run with the rendered total
sequence length. -/
def emitChunks (pos : List ℚ) (seqLengthStr : String) :
    Nat → List ((String × String) × Nat) → List String
  | _, [] => []
  | s, (v, m) :: G =>
    match G with
    | [] => [treeLine seqLengthStr (planar_order_to_newick v.1 v.2 true)]
    | _ :: _ =>
      treeLine (pyFloat (pos.getD (s + m) 0)) (planar_order_to_newick v.1 v.2 true)
        :: emitChunks pos seqLengthStr (s + m) G

theorem emitChunks_length (pos : List ℚ) (seqLengthStr : String) :
    ∀ (G : List ((String × String) × Nat)) (s : Nat),
    (emitChunks pos seqLengthStr s G).length = G.length := by
  intro G
  induction G with
  | nil => intro s; rfl
  | cons vm G' ih =>
    obtain ⟨v, m⟩ := vm
    intro s
    cases G' with
    | nil => rfl
    | cons wk G'' =>
      rw [show emitChunks pos seqLengthStr s ((v, m) :: wk :: G'')
        = treeLine (pyFloat (pos.getD (s + m) 0)) (planar_order_to_newick v.1 v.2 true)
            :: emitChunks pos seqLengthStr (s + m) (wk :: G'') from rfl]
      simp [ih (s + m)]

theorem scanChunks_emit (pos : List ℚ) (seqLengthStr : String) :
    ∀ (G' : List ((String × String) × Nat)) (v : String × String) (s m : Nat),
    scanChunksFrom pos v (s + m) G'
        ++ [treeLine seqLengthStr
              (planar_order_to_newick (lastVal v G').1 (lastVal v G').2 true)]
      = emitChunks pos seqLengthStr s ((v, m) :: G') := by
  intro G'
  induction G' with
  | nil =>
    intro v s m
    simp [scanChunksFrom, emitChunks, lastVal]
  | cons wk G'' ih =>
    obtain ⟨w, k⟩ := wk
    intro v s m
    rw [lastVal_cons]
    rw [show scanChunksFrom pos v (s + m) ((w, k) :: G'')
      = treeLine (pyFloat (pos.getD (s + m) 0)) (planar_order_to_newick v.1 v.2 true)
          :: scanChunksFrom pos w (s + m + k) G'' from rfl]
    rw [List.cons_append, ih w (s + m) k]
    rfl

theorem digit_not_ws (c : Char) (h : c.isDigit = true) : ¬ c.isWhitespace = true := by
  intro hw
  have := (by simpa [Char.isWhitespace] using hw :
    ((c = ' ' ∨ c = '\t') ∨ c = '\r') ∨ c = '\n')
  rcases this with ((rfl | rfl) | rfl) | rfl <;> simp [Char.isDigit] at h

theorem pyRstrip_ne_empty_of_digit (l : String) (hd : startsWithDigit l = true) :
    pyRstrip l ≠ "" := by
  intro h
  have hdata : (l.data.reverse.dropWhile Char.isWhitespace).reverse = [] :=
    congrArg String.data h
  rw [List.reverse_eq_nil_iff, List.dropWhile_eq_nil_iff] at hdata
  unfold startsWithDigit at hd
  cases hld : l.data with
  | nil => rw [hld] at hd; simp at hd
  | cons c cs =>
    rw [hld] at hd hdata
    have hcw := hdata c (by simp)
    have hcd : c.isDigit = true := by simpa using hd
    exact digit_not_ws c hcd hcw

theorem planarRecords_fst_ne : ∀ (n : Nat) (lines : List String), lines.length ≤ n →
    ∀ r ∈ planarRecords lines, r.1 ≠ "" := by
  intro n
  induction n with
  | zero =>
    intro lines hn r hr
    have : lines = [] := List.eq_nil_of_length_eq_zero (by omega)
    subst this
    simp [planarRecords] at hr
  | succ n ih =>
    intro lines hn r hr
    match lines with
    | [] => simp [planarRecords] at hr
    | [line] => simp [planarRecords] at hr
    | line :: hline :: rest2 =>
      by_cases hd : startsWithDigit line = true
      · rw [show planarRecords (line :: hline :: rest2)
          = (pyRstrip line, pyRstrip hline) :: planarRecords rest2 from by
            simp [planarRecords, hd]] at hr
        rcases List.mem_cons.mp hr with h1 | h1
        · rw [h1]
          exact pyRstrip_ne_empty_of_digit line hd
        · exact ih rest2 (by simp at hn ⊢; omega) r h1
      · rw [show planarRecords (line :: hline :: rest2) = planarRecords (hline :: rest2)
          from by simp [planarRecords, hd]] at hr
        exact ih (hline :: rest2) (by simp at hn ⊢; omega) r hr

/-- C4: for a well-paired forward-form stream whose records have nonempty
height text and one more order token than parsed heights, and whose position
index has one entry per site, the conversion emits exactly one `TREE` chunk
per maximal group of consecutive identical (order, height) records — tagged
with the position-index entry of the first site after the group, or with the
rendered total sequence length for the final group — inside the Nexus
envelope, with no error. -/
theorem claim_C4 (lines : List String) (pos : List ℚ) (seqLengthStr : String)
    (hwp : wellPaired lines = true)
    (hne : planarRecords lines ≠ [])
    (hh : ∀ r ∈ planarRecords lines, r.2 ≠ "")
    (hwf : ∀ r ∈ planarRecords lines, recordWF r = true)
    (hcount : pos.length = (planarRecords lines).length) :
    planar_to_nexus lines pos seqLengthStr
        = ("#NEXUS\nBEGIN TREES;\n"
            :: emitChunks pos seqLengthStr 0 (groupRuns (planarRecords lines))
            ++ ["END;\n"], none)
      ∧ (emitChunks pos seqLengthStr 0 (groupRuns (planarRecords lines))).length
          = (groupRuns (planarRecords lines)).length := by
  refine ⟨?_, emitChunks_length pos seqLengthStr _ 0⟩
  have hfst := planarRecords_fst_ne lines.length lines (le_refl _)
  cases hg : groupRuns (planarRecords lines) with
  | nil =>
    exfalso
    have := flattenG_groupRuns (planarRecords lines)
    rw [hg, flattenG_nil] at this
    exact hne this.symm
  | cons vm G' =>
    obtain ⟨v, m⟩ := vm
    have hsz : sizeSum ((v, m) :: G') = pos.length := by
      rw [← hg, sizeSum_groupRuns, hcount]
    have hscan : planarScan lines ("", "") "" 0 pos
        = (scanChunksFrom pos v m G',
            .fin (lastVal v G') ((lastVal v G').2) pos.length) := by
      rw [planarScan_factor lines.length lines (le_refl _) hwp,
        recordScan_groups_top (planarRecords lines) pos hfst hwf (by omega) v m G' hg,
        hsz]
    have hheight : (lastVal v G').2 ≠ "" := by
      rcases lastVal_mem G' v with h1 | h1
      · rw [h1]
        exact hh v (groupRuns_val_mem _ v m (by rw [hg]; simp))
      · obtain ⟨k, hk⟩ := h1
        exact hh _ (groupRuns_val_mem _ _ k (by rw [hg]; exact List.mem_cons_of_mem _ hk))
    have hlwf : recordWF (lastVal v G') = true := by
      rcases lastVal_mem G' v with h1 | h1
      · rw [h1]
        exact hwf v (groupRuns_val_mem _ v m (by rw [hg]; simp))
      · obtain ⟨k, hk⟩ := h1
        exact hwf _ (groupRuns_val_mem _ _ k (by rw [hg]; exact List.mem_cons_of_mem _ hk))
    unfold planar_to_nexus
    simp only [hscan]
    rw [if_neg (show ¬ pos.length ≠ pos.length by simp)]
    rw [if_pos hheight]
    rw [newickE_of_wf (lastVal v G') hlwf]
    simp only
    have hbridge := scanChunks_emit pos seqLengthStr G' v 0 m
    rw [Nat.zero_add] at hbridge
    rw [hbridge]

theorem claim_C4_witness :
    planar_to_nexus ["0,1", "1", "0,1", "1", "2,0", "1"] [5, 7, 9] "10"
        = ("#NEXUS\nBEGIN TREES;\n"
            :: emitChunks [5, 7, 9] "10" 0
                (groupRuns (planarRecords ["0,1", "1", "0,1", "1", "2,0", "1"]))
            ++ ["END;\n"], none)
      ∧ (emitChunks [5, 7, 9] "10" 0
            (groupRuns (planarRecords ["0,1", "1", "0,1", "1", "2,0", "1"]))).length
          = (groupRuns (planarRecords ["0,1", "1", "0,1", "1", "2,0", "1"])).length :=
  claim_C4 ["0,1", "1", "0,1", "1", "2,0", "1"] [5, 7, 9] "10"
    (by decide) (by decide) (by decide) (by decide) (by decide)

/-! ### Reverse-form record level -/

